import Mathlib

/-!
Shallow embedding of the parallel chunked generation engine of the `gen`
repository (src/program.rs, src/args.rs), together with proofs of the
specification claims about it.

Modelling conventions:
* machine integers (`usize`, `u64`, `u8`) are `Nat`; truncating casts are
  explicit `% 2^w`;
* a thread RNG is an abstract stream of naturals (`Rng`); `gen_range(0..k)`
  is modelled as drawing the next stream element and reducing it `% k`,
  and `gen::<u64>()` as drawing the next stream element (split into its
  eight bytes where the source does);
* the shared `Sink` is modelled as the list of flushed buffers, in
  per-worker order (the claims proved here are insensitive to interleaving
  of different workers' flushes);
* `panic!` in the source is modelled as returning a `GenError`; a panic
  happens before any thread is spawned, so an `.error` result carries no
  writes by construction, mirroring the source;
* the unbounded retry loops of `generate_random_unicode` and the infinite
  streaming loops are given explicit fuel; running out of fuel yields
  `none` ("the program is still running"), never a fabricated result.
-/

namespace GenSpec

/-- An abstract random source: an infinite stream of naturals together with
a cursor.  Models `rand::thread_rng()`; each worker owns an independent one. -/
structure Rng where
  seq : Nat → Nat
  idx : Nat

/-- Draw the next random value. -/
def Rng.next (r : Rng) : Nat × Rng :=
  (r.seq r.idx, ⟨r.seq, r.idx + 1⟩)

/-- Byte units of `args.rs` (`ByteUnit`). -/
inductive ByteUnit where
  | B | KB | KiB | MB | MiB | GB | GiB
deriving DecidableEq

/-- `args.rs` `ByteSize`: a value together with a unit. -/
structure ByteSize where
  value : Nat
  unit : ByteUnit
deriving DecidableEq

/-- `ByteSize::to_bytes`. -/
def ByteSize.toBytes (b : ByteSize) : Nat :=
  match b.unit with
  | .B => b.value
  | .KB => b.value * 1000
  | .KiB => b.value * 1024
  | .MB => b.value * 1000 * 1000
  | .MiB => b.value * 1024 * 1024
  | .GB => b.value * 1000 * 1000 * 1000
  | .GiB => b.value * 1024 * 1024 * 1024

/-- `args.rs` `UnicodeEncoding`. -/
inductive UEncoding where
  | utf8 | utf16 | utf32
deriving DecidableEq

/-- `min_byte_size` of `generate_unicode`: the minimum encoded width of one
symbol, which is also the encoding's atomic unit. -/
def encWidth : UEncoding → Nat
  | .utf8 => 1
  | .utf16 => 2
  | .utf32 => 4

/-- The fatal construction-time failures of `program.rs`, one constructor per
`panic!` site reachable before any worker thread is spawned. -/
inductive GenError where
  /-- "Buffer size after being divided by the number of threads must be …" -/
  | configBuf
  /-- "Size too small for encoding." -/
  | sizeTooSmall
  /-- "Size must be divisible by … for … encoding" -/
  | sizeNotDivisible
  /-- "Charset cannot be empty" -/
  | emptyAlphabet
  /-- "--daemon option is not supported for unicode generation yet" -/
  | daemonUnsupported
deriving DecidableEq

/-- Whether a `GenError` is a configuration error in the sense of the spec's
`ConfigError` (buffer too small once divided, or a bad requested size). -/
def GenError.isConfig : GenError → Bool
  | .configBuf => true
  | .sizeTooSmall => true
  | .sizeNotDivisible => true
  | _ => false

/-- The guard `if buf_size < limit { panic!(…) }` applied to the optional
per-thread buffer size (already divided by the number of threads). -/
def checkBuf (bufDiv : Option Nat) (limit : Nat) : Bool :=
  match bufDiv with
  | some b => b < limit
  | none => false

/-- `SIMUL_BYTES`: the batched ASCII fast path writes 8 bytes per 64-bit
random draw. -/
def SIMUL_BYTES : Nat := 8

/-- `chunks[k] += 1` on a list of chunk sizes. -/
def incAt : List Nat → Nat → List Nat
  | [], _ => []
  | x :: xs, 0 => (x + 1) :: xs
  | x :: xs, k + 1 => x :: incAt xs k

/-- The round-robin distribution loop
`for i in 0..a { chunks[i % num_threads] += 1; }`. -/
def roundRobin (n : Nat) (chunks : List Nat) (a : Nat) : List Nat :=
  (List.range a).foldl (fun cs i => incAt cs (i % n)) chunks

/-- The chunk plan of `generate_ascii` (lines 653–667), in units of
`SIMUL_BYTES`-sized groups: each worker's byte count is `chunk * 8`. -/
def asciiChunks (total n : Nat) : List Nat :=
  let fullChunks := total / (n * SIMUL_BYTES)
  let remaining := total % (n * SIMUL_BYTES)
  let chunks := List.replicate n fullChunks
  if remaining ≥ SIMUL_BYTES then roundRobin n chunks (remaining / SIMUL_BYTES) else chunks

/-- The per-worker byte counts of the ASCII chunk plan
(`byte_count = chunk_size * SIMUL_BYTES`, line 693). -/
def asciiByteChunks (total n : Nat) : List Nat :=
  (asciiChunks total n).map (· * SIMUL_BYTES)

/-- `leftover_bytes = remaining_bytes % SIMUL_BYTES` (line 775): what is
generated serially on the orchestrating thread after the workers join. -/
def asciiLeftover (total n : Nat) : Nat :=
  total % (n * SIMUL_BYTES) % SIMUL_BYTES

/-- The chunk plan of `generate_unicode` (lines 862–868), already in bytes:
`base_size * m` for every worker, with the first `remainder` workers given
one extra atomic unit. -/
def unicodeChunks (total n m : Nat) : List Nat :=
  let base := total / (n * m)
  let rem := (total / m) % n
  let chunks := List.replicate n (base * m)
  ((chunks.take rem).map (· + m)) ++ chunks.drop rem

/-- `chunks[0] -= 1` of the scalar generators (`generate_int` etc., "remove
one from the first chunk to account for the last write without a newline"). -/
def decHead : List Nat → List Nat
  | [] => []
  | x :: xs => (x - 1) :: xs

/-- The chunk plan of `generate_int`/`generate_float`/`generate_uuid`/
`generate_url` (lines 144–160): item counts per worker, with the remainder
distributed round-robin and one item reserved for the final serial write. -/
def scalarChunks (amount n : Nat) : List Nat :=
  let fullChunks := amount / n
  let remaining := amount % n
  let chunks := List.replicate n fullChunks
  let chunks := if remaining > 0 then roundRobin n chunks remaining else chunks
  decHead chunks

/-- The eight native-endianness bytes of one `u64` draw
(`num.to_ne_bytes()`). -/
def u64Bytes (v : Nat) : List Nat :=
  (List.range 8).map (fun k => v / 256 ^ k % 256)

/-- `generate_random_ascii_8` (lines 965–986): per 64-bit draw, split it into
eight bytes, reduce each `% chars_len` to an alphabet index, and push the
indexed symbol truncated to a byte (`chars[i] as u8`); the progress bar is
incremented by `SIMUL_BYTES` once per draw.  Returns the bytes pushed, the
advanced RNG, and the total progress increment. -/
def genAscii8 : Nat → List Nat → Rng → List Nat × Rng × Nat
  | 0, _, rng => ([], rng, 0)
  | longs + 1, chars, rng =>
    let (v, rng') := rng.next
    let block := (u64Bytes v).map (fun b => chars.getD (b % chars.length) 0 % 256)
    let (bs, rng'', p) := genAscii8 longs chars rng'
    (block ++ bs, rng'', SIMUL_BYTES + p)

/-- `generate_random_ascii` (lines 988–1005): per byte, draw one alphabet
index with `gen_range(0..chars_len)` and push the indexed symbol truncated to
a byte; the progress bar is incremented by `SIMUL_BYTES` once per byte (the
source increments by `SIMUL_BYTES`, not by 1, in this per-byte loop). -/
def genAsciiBytes : Nat → List Nat → Rng → List Nat × Rng × Nat
  | 0, _, rng => ([], rng, 0)
  | bytes + 1, chars, rng =>
    let (v, rng') := rng.next
    let b := chars.getD (v % chars.length) 0 % 256
    let (bs, rng'', p) := genAsciiBytes bytes chars rng'
    (b :: bs, rng'', SIMUL_BYTES + p)

/-- The `for _ in 0..rounds` loop of an ASCII worker: each round generates a
full buffer with `generate_random_ascii_8` and flushes it. -/
def asciiRounds : Nat → Nat → List Nat → Rng → List (List Nat) × Rng × Nat
  | 0, _, _, rng => ([], rng, 0)
  | r + 1, bufLongs, chars, rng =>
    let (w, rng', p) := genAscii8 bufLongs chars rng
    let (ws, rng'', ps) := asciiRounds r bufLongs chars rng'
    (w :: ws, rng'', p + ps)

/-- One finite-mode ASCII worker (lines 720–762): full rounds, then — unless
the remainder is below `SIMUL_BYTES` — a final flush of the batched part of
the remainder followed by its sub-batch tail.  Returns the flushed buffers
and the worker's total progress increment. -/
def asciiWorker (byteCount bufSize : Nat) (chars : List Nat) (rng : Rng) :
    List (List Nat) × Nat :=
  let rounds := byteCount / bufSize
  let remainder := byteCount % bufSize
  let (ws, rng', p) := asciiRounds rounds (bufSize / SIMUL_BYTES) chars rng
  if remainder < SIMUL_BYTES then (ws, p)
  else
    let remainderSimul := remainder / SIMUL_BYTES * SIMUL_BYTES
    let (w1, rng'', p1) := genAscii8 (remainderSimul / SIMUL_BYTES) chars rng'
    let (w2, _, p2) := genAsciiBytes (remainder - remainderSimul) chars rng''
    (ws ++ [w1 ++ w2], p + (p1 + p2))

/-- The worker-spawning loop of `generate_ascii` (lines 684–765): one worker
per chunk, skipping empty chunks; worker `i` owns the independent random
stream `rngSeq i`.  The caller-supplied buffer size (already divided and
rounded) is used when present, else the worker's whole byte count. -/
def asciiWorkers (bufOpt : Option Nat) (chars : List Nat) (rngSeq : Nat → Nat → Nat) :
    List Nat → Nat → List (List Nat) × Nat
  | [], _ => ([], 0)
  | chunk :: rest, i =>
    let (restWs, restP) := asciiWorkers bufOpt chars rngSeq rest (i + 1)
    if chunk = 0 then (restWs, restP)
    else
      let byteCount := chunk * SIMUL_BYTES
      let bufSize := bufOpt.getD byteCount
      let (ws, p) := asciiWorker byteCount bufSize chars ⟨rngSeq i, 0⟩
      (ws ++ restWs, p + restP)

/-- `(32..127)` resp. `(0..128)` filtered through `char::from_u32`, which is
the identity on this range. -/
def asciiUniverse (printableOnly : Bool) : List Nat :=
  if printableOnly then List.range' 32 95 else List.range 128

/-- The resolved ASCII alphabet (lines 630–647): the charset (or the
universe), minus the exclusion string, minus the symbols whose byte
truncation is an excluded code. -/
def resolveAsciiChars (charset : Option (List Nat)) (printableOnly : Bool)
    (exclude excludeCodes : Option (List Nat)) : List Nat :=
  let chars := charset.getD (asciiUniverse printableOnly)
  let chars :=
    match exclude with
    | some e => chars.filter (fun c => !(e.contains c))
    | none => chars
  match excludeCodes with
  | some codes => chars.filter (fun c => !(codes.contains (c % 256)))
  | none => chars

/-- `generate_ascii` (lines 598–792), finite path.  Checks the divided buffer
size, resolves the alphabet, plans the chunks, runs the workers, and finally
generates the sub-`SIMUL_BYTES` leftover serially with a fresh random source.
Returns the list of flushed buffers together with the final value of the
progress counter; `.ok none` stands for the never-returning infinite mode. -/
def runAscii (size : Option ByteSize) (charset : Option (List Nat))
    (printableOnly : Bool) (exclude excludeCodes : Option (List Nat))
    (n : Nat) (bufSize : Option ByteSize) (daemon : Bool)
    (rngSeq : Nat → Nat → Nat) (leftSeq : Nat → Nat) :
    Except GenError (Option (List (List Nat) × Nat)) :=
  let infinite := daemon && size.isNone
  let bufDiv := bufSize.map (fun b => b.toBytes / n)
  if checkBuf bufDiv SIMUL_BYTES then .error .configBuf
  else
    let bufOpt := bufDiv.map (fun b => b / SIMUL_BYTES * SIMUL_BYTES)
    let chars := resolveAsciiChars charset printableOnly exclude excludeCodes
    if chars.isEmpty then .error .emptyAlphabet
    else
      let total := (size.getD ⟨1, ByteUnit.B⟩).toBytes
      if infinite then .ok none
      else
        let chunks := asciiChunks total n
        let wsp := asciiWorkers bufOpt chars rngSeq chunks 0
        let leftover := asciiLeftover total n
        if leftover > 0 then
          let g := genAsciiBytes leftover chars ⟨leftSeq, 0⟩
          .ok (some (wsp.1 ++ [g.1], wsp.2 + g.2.2))
        else .ok (some wsp)

/-- `char::len_utf8` on a scalar value. -/
def utf8Len (c : Nat) : Nat :=
  if c < 0x80 then 1 else if c < 0x800 then 2 else if c < 0x10000 then 3 else 4

/-- `char::encode_utf8`: the UTF-8 bytes of a scalar value. -/
def utf8Encode (c : Nat) : List Nat :=
  if c < 0x80 then [c]
  else if c < 0x800 then [0xC0 + c / 64, 0x80 + c % 64]
  else if c < 0x10000 then [0xE0 + c / 4096, 0x80 + c / 64 % 64, 0x80 + c % 64]
  else [0xF0 + c / 262144, 0x80 + c / 4096 % 64, 0x80 + c / 64 % 64, 0x80 + c % 64]

/-- `char::len_utf16`: number of UTF-16 code units of a scalar value. -/
def utf16Units (c : Nat) : Nat :=
  if c < 0x10000 then 1 else 2

/-- `char::encode_utf16` followed by `u16::to_le_bytes` on each unit: the
little-endian UTF-16 bytes of a scalar value. -/
def utf16LEEncode (c : Nat) : List Nat :=
  if c < 0x10000 then [c % 256, c / 256]
  else
    [(0xD800 + (c - 0x10000) / 1024) % 256, (0xD800 + (c - 0x10000) / 1024) / 256,
     (0xDC00 + (c - 0x10000) % 1024) % 256, (0xDC00 + (c - 0x10000) % 1024) / 256]

/-- `(ch as u32).to_le_bytes()`: the four little-endian bytes of a scalar
value. -/
def u32LEBytes (c : Nat) : List Nat :=
  [c % 256, c / 256 % 256, c / 65536 % 256, c / 16777216 % 256]

/-- The encoded byte sequence of one symbol under the active encoding. -/
def encodeSym : UEncoding → Nat → List Nat
  | .utf8, c => utf8Encode c
  | .utf16, c => utf16LEEncode c
  | .utf32, c => u32LEBytes c

/-- `let char_index = rng.gen_range(0..chars_len); let ch = chars[char_index]`:
draw the next random value, reduce it to an alphabet index, and return the
indexed symbol together with the advanced RNG. -/
def drawSym (chars : List Nat) (rng : Rng) : Nat × Rng :=
  (chars.getD (rng.next.1 % chars.length) 0, rng.next.2)

/-- The shared shape of the `Utf8` and `Utf16` arms of
`generate_random_unicode` (lines 1054–1098): while the running byte count is
below the budget, draw a uniformly random alphabet symbol; append the drawn
symbol's encoding and advance the count only if the symbol's encoded length
still fits, else discard the draw and retry.  `lenFn`/`encFn` are the arm's
length and encoding functions; `fuel` bounds the retry loop, `none` meaning
the loop has not yet terminated. -/
def guardedLoop (lenFn : Nat → Nat) (encFn : Nat → List Nat) :
    Nat → Nat → Nat → List Nat → Rng → List Nat → Option (List Nat × Rng)
  | 0, budget, current, _, rng, acc =>
    if current < budget then none else some (acc, rng)
  | fuel + 1, budget, current, chars, rng, acc =>
    if current < budget then
      if current + lenFn (drawSym chars rng).1 ≤ budget then
        guardedLoop lenFn encFn fuel budget (current + lenFn (drawSym chars rng).1) chars
          (drawSym chars rng).2 (acc ++ encFn (drawSym chars rng).1)
      else
        guardedLoop lenFn encFn fuel budget current chars (drawSym chars rng).2 acc
    else some (acc, rng)

/-- The `Utf32` arm of `generate_random_unicode` (lines 1100–1113): while the
running byte count is below the budget, draw a symbol and append its four
little-endian bytes unconditionally (every symbol is exactly four bytes;
there is no fit check in the source). -/
def utf32Loop : Nat → Nat → Nat → List Nat → Rng → List Nat → Option (List Nat × Rng)
  | 0, budget, current, _, rng, acc =>
    if current < budget then none else some (acc, rng)
  | fuel + 1, budget, current, chars, rng, acc =>
    if current < budget then
      utf32Loop fuel budget (current + 4) chars (drawSym chars rng).2
        (acc ++ u32LEBytes (drawSym chars rng).1)
    else some (acc, rng)

/-- `generate_random_unicode` (lines 1042–1116): dispatch on the encoding;
`current` is the caller's running byte count (always 0 at call sites, since
the worker clears it after every flush) and `budget` the byte budget of this
call. -/
def genRandomUnicode (enc : UEncoding) (fuel current budget : Nat)
    (chars : List Nat) (rng : Rng) : Option (List Nat × Rng) :=
  match enc with
  | .utf8 => guardedLoop utf8Len utf8Encode fuel budget current chars rng []
  | .utf16 => guardedLoop (fun c => utf16Units c * 2) utf16LEEncode fuel budget current chars rng []
  | .utf32 => utf32Loop fuel budget current chars rng []

/-- The `for _ in 0..rounds` loop of a Unicode worker (lines 906–920): each
round generates one full buffer (byte count reset to 0 afterwards) and
flushes it. -/
def unicodeRounds (enc : UEncoding) (fuel : Nat) :
    Nat → Nat → List Nat → Rng → Option (List (List Nat) × Rng)
  | 0, _, _, rng => some ([], rng)
  | r + 1, bufSize, chars, rng =>
    match genRandomUnicode enc fuel 0 bufSize chars rng with
    | none => none
    | some (w, rng') =>
      match unicodeRounds enc fuel r bufSize chars rng' with
      | none => none
      | some (ws, rng'') => some (w :: ws, rng'')

/-- One finite-mode Unicode worker (lines 899–938): full rounds, then —
unless the remainder is below the encoding's atomic unit — one final
generation call with the remainder as budget, flushed once. -/
def unicodeWorker (enc : UEncoding) (fuel chunkSize bufSize m : Nat)
    (chars : List Nat) (rng : Rng) : Option (List (List Nat)) :=
  match unicodeRounds enc fuel (chunkSize / bufSize) bufSize chars rng with
  | none => none
  | some (ws, rng') =>
    if chunkSize % bufSize < m then some ws
    else
      match genRandomUnicode enc fuel 0 (chunkSize % bufSize) chars rng' with
      | none => none
      | some (w, _) => some (ws ++ [w])

/-- The worker-spawning loop of `generate_unicode` (lines 887–941): one
worker per chunk, skipping empty chunks; worker `i` owns the independent
random stream `rngSeq i`. -/
def unicodeWorkers (enc : UEncoding) (fuel : Nat) (bufOpt : Option Nat) (m : Nat)
    (chars : List Nat) (rngSeq : Nat → Nat → Nat) :
    List Nat → Nat → Option (List (List Nat))
  | [], _ => some []
  | chunk :: rest, i =>
    match unicodeWorkers enc fuel bufOpt m chars rngSeq rest (i + 1) with
    | none => none
    | some restWs =>
      if chunk = 0 then some restWs
      else
        match unicodeWorker enc fuel chunk (bufOpt.getD chunk) m chars ⟨rngSeq i, 0⟩ with
        | none => none
        | some ws => some (ws ++ restWs)

/-- `(0..=0x10FFFF).filter_map(char::from_u32)`: every Unicode scalar value
(`char::from_u32` rejects exactly the surrogates in this range). -/
def unicodeUniverse : List Nat :=
  (List.range 0x110000).filter (fun c => decide (Nat.isValidChar c))

/-- The resolved Unicode alphabet (lines 847–856): the charset (or every
scalar value) minus the exclusion string. -/
def resolveUnicodeChars (charset exclude : Option (List Nat)) : List Nat :=
  let chars := charset.getD unicodeUniverse
  match exclude with
  | some e => chars.filter (fun c => !(e.contains c))
  | none => chars

/-- `generate_unicode` (lines 794–946).  Rejects daemon mode outright, checks
the divided buffer size and the requested size against the encoding's atomic
unit, resolves the alphabet, plans the chunks and runs the workers.  There is
no serial leftover write: the whole total is distributed to the workers.
`.ok none` means some retry loop had not terminated within its fuel. -/
def runUnicode (size : Option ByteSize) (enc : UEncoding)
    (charset exclude : Option (List Nat)) (n : Nat) (bufSize : Option ByteSize)
    (daemon : Bool) (rngSeq : Nat → Nat → Nat) (fuel : Nat) :
    Except GenError (Option (List (List Nat))) :=
  if daemon then .error .daemonUnsupported
  else
    let m := encWidth enc
    let bufDiv := bufSize.map (fun b => b.toBytes / n)
    if checkBuf bufDiv m then .error .configBuf
    else
      let bufOpt := bufDiv.map (fun b => b / m * m)
      let total := (size.getD ⟨m, ByteUnit.B⟩).toBytes
      if total < m then .error .sizeTooSmall
      else if total % m ≠ 0 then .error .sizeNotDivisible
      else
        let chars := resolveUnicodeChars charset exclude
        if chars.isEmpty then .error .emptyAlphabet
        else
          let chunks := unicodeChunks total n m
          match unicodeWorkers enc fuel bufOpt m chars rngSeq chunks 0 with
          | none => .ok none
          | some ws => .ok (some ws)

/-- A UTF-8 continuation byte: `0b10xxxxxx`. -/
def utf8Cont (b : Nat) : Prop := 0x80 ≤ b ∧ b < 0xC0

instance (b : Nat) : Decidable (utf8Cont b) :=
  inferInstanceAs (Decidable (0x80 ≤ b ∧ b < 0xC0))

/-- The scalar value assembled from a two-byte UTF-8 sequence. -/
def utf8Val2 (b b1 : Nat) : Nat := (b - 0xC0) * 64 + (b1 - 0x80)

/-- The scalar value assembled from a three-byte UTF-8 sequence. -/
def utf8Val3 (b b1 b2 : Nat) : Nat := (b - 0xE0) * 4096 + (b1 - 0x80) * 64 + (b2 - 0x80)

/-- The scalar value assembled from a four-byte UTF-8 sequence. -/
def utf8Val4 (b b1 b2 b3 : Nat) : Nat :=
  (b - 0xF0) * 262144 + (b1 - 0x80) * 4096 + (b2 - 0x80) * 64 + (b3 - 0x80)

/-- A three-byte sequence must decode into `0x800..0xFFFF` minus the
surrogate range (no overlong forms, no surrogates). -/
def utf8Ok3 (c : Nat) : Prop := 0x800 ≤ c ∧ (c < 0xD800 ∨ 0xDFFF < c)

instance (c : Nat) : Decidable (utf8Ok3 c) :=
  inferInstanceAs (Decidable (0x800 ≤ c ∧ (c < 0xD800 ∨ 0xDFFF < c)))

/-- A four-byte sequence must decode into `0x10000..0x10FFFF`. -/
def utf8Ok4 (c : Nat) : Prop := 0x10000 ≤ c ∧ c < 0x110000

instance (c : Nat) : Decidable (utf8Ok4 c) :=
  inferInstanceAs (Decidable (0x10000 ≤ c ∧ c < 0x110000))

/-- Decode one UTF-8 symbol whose leading byte is `b` and whose following
bytes start `rest`; returns the scalar value and the unconsumed remainder,
rejecting stray continuation bytes, truncated sequences, overlong forms,
surrogates and out-of-range values. -/
def utf8DecodeOne (b : Nat) (rest : List Nat) : Option (Nat × List Nat) :=
  if b < 0x80 then some (b, rest)
  else if b < 0xC2 then none
  else if b < 0xE0 then
    match rest with
    | b1 :: rest1 =>
      if utf8Cont b1 then some (utf8Val2 b b1, rest1) else none
    | [] => none
  else if b < 0xF0 then
    match rest with
    | b1 :: b2 :: rest2 =>
      if utf8Cont b1 ∧ utf8Cont b2 then
        if utf8Ok3 (utf8Val3 b b1 b2) then some (utf8Val3 b b1 b2, rest2) else none
      else none
    | _ => none
  else if b < 0xF5 then
    match rest with
    | b1 :: b2 :: b3 :: rest3 =>
      if utf8Cont b1 ∧ utf8Cont b2 ∧ utf8Cont b3 then
        if utf8Ok4 (utf8Val4 b b1 b2 b3) then some (utf8Val4 b b1 b2 b3, rest3) else none
      else none
    | _ => none
  else none

/-- Iterate `utf8DecodeOne` over a byte sequence; `fuel` only needs to
dominate the number of symbols (each step consumes at least the leading
byte). -/
def utf8DecodeLoop : Nat → List Nat → Option (List Nat)
  | _, [] => some []
  | 0, _ :: _ => none
  | fuel + 1, b :: rest =>
    match utf8DecodeOne b rest with
    | none => none
    | some (c, rest') => Option.map (fun cs => c :: cs) (utf8DecodeLoop fuel rest')

/-- A UTF-8 decoder: splits a byte sequence into scalar values, rejecting
truncated sequences, stray continuation bytes, overlong forms, surrogates
and out-of-range values. -/
def utf8Decode (l : List Nat) : Option (List Nat) :=
  utf8DecodeLoop l.length l

/-- A little-endian UTF-16 decoder: pairs bytes into code units, combining
surrogate pairs and rejecting unpaired surrogates and odd-length input. -/
def utf16Decode : List Nat → Option (List Nat)
  | [] => some []
  | b0 :: b1 :: rest =>
    if b0 + 256 * b1 < 0xD800 ∨ 0xDFFF < b0 + 256 * b1 then
      Option.map (fun cs => (b0 + 256 * b1) :: cs) (utf16Decode rest)
    else if b0 + 256 * b1 < 0xDC00 then
      match rest with
      | c0 :: c1 :: rest2 =>
        if 0xDC00 ≤ c0 + 256 * c1 ∧ c0 + 256 * c1 ≤ 0xDFFF then
          Option.map
            (fun cs => (0x10000 + (b0 + 256 * b1 - 0xD800) * 1024 + (c0 + 256 * c1 - 0xDC00)) :: cs)
            (utf16Decode rest2)
        else none
      | _ => none
    else none
  | _ => none
termination_by structural l => l

/-- A little-endian UTF-32 decoder: groups bytes into fours, rejecting
invalid scalar values and input whose length is not a multiple of four. -/
def utf32Decode : List Nat → Option (List Nat)
  | [] => some []
  | b0 :: b1 :: b2 :: b3 :: rest =>
    if Nat.isValidChar (b0 + 256 * b1 + 65536 * b2 + 16777216 * b3) then
      Option.map (fun cs => (b0 + 256 * b1 + 65536 * b2 + 16777216 * b3) :: cs) (utf32Decode rest)
    else none
  | _ => none
termination_by structural l => l

/-- The decoder for the active encoding. -/
def decodeEnc : UEncoding → List Nat → Option (List Nat)
  | .utf8 => utf8Decode
  | .utf16 => utf16Decode
  | .utf32 => utf32Decode

/-- A buffer that consists of a whole number of completely encoded symbols,
all drawn from the given alphabet. -/
def IsSymbolConcat (enc : UEncoding) (alphabet : List Nat) (w : List Nat) : Prop :=
  ∃ syms : List Nat, (∀ s ∈ syms, s ∈ alphabet) ∧ w = (syms.map (encodeSym enc)).flatten

/-- `generate_random_value` (lines 948–962): push `amount` generated values
into the buffer.  The generated value itself is abstract (an integer's, a
float's, a UUID's or a URL's textual form), drawn from the worker's stream. -/
def genValues : Nat → Rng → List Nat × Rng
  | 0, rng => ([], rng)
  | amount + 1, rng =>
    let (v, rng') := rng.next
    let (vs, rng'') := genValues amount rng'
    (v :: vs, rng'')

/-- The `for _ in 0..rounds` loop of a scalar worker: each round generates a
full buffer of values and flushes it with `writeln`. -/
def scalarRounds : Nat → Nat → Rng → List (List Nat) × Rng
  | 0, _, rng => ([], rng)
  | r + 1, bufSize, rng =>
    let (w, rng') := genValues bufSize rng
    let (ws, rng'') := scalarRounds r bufSize rng'
    (w :: ws, rng'')

/-- One finite-mode scalar worker (`generate_int` lines 186–221, identical in
the float/uuid/url generators): full rounds, then one flush of the remainder
if it is non-zero.  Each flushed buffer is a list of items. -/
def scalarWorker (chunkSize bufSize : Nat) (rng : Rng) : List (List Nat) :=
  let rounds := chunkSize / bufSize
  let remainder := chunkSize % bufSize
  let (ws, rng') := scalarRounds rounds bufSize rng
  if remainder = 0 then ws
  else
    let (w, _) := genValues remainder rng'
    ws ++ [w]

/-- The worker-spawning loop of the scalar generators (lines 172–224): one
worker per chunk, skipping empty chunks; the default buffer length is the
chunk itself unless the chunk exceeds 1000, in which case it is divided by
the thread count once more. -/
def scalarWorkers (n : Nat) (bufOpt : Option Nat) (rngSeq : Nat → Nat → Nat) :
    List Nat → Nat → List (List Nat)
  | [], _ => []
  | chunk :: rest, i =>
    let restWs := scalarWorkers n bufOpt rngSeq rest (i + 1)
    if chunk = 0 then restWs
    else
      let bufSize := bufOpt.getD (if chunk > 1000 then chunk / n else chunk)
      scalarWorker chunk bufSize ⟨rngSeq i, 0⟩ ++ restWs

/-- The finite path shared by `generate_int`/`generate_float`/
`generate_uuid`/`generate_url` (lines 129–237): plan the chunks with one item
reserved, run the workers, then write the final single item serially from a
fresh random source (the last write without a newline).  `none` stands for
the never-returning infinite mode. -/
def runScalar (amount : Option Nat) (n : Nat) (bufOpt : Option Nat)
    (daemon : Bool) (rngSeq : Nat → Nat → Nat) (mainSeq : Nat → Nat) :
    Option (List (List Nat)) :=
  if daemon && amount.isNone then none
  else
    some (scalarWorkers n bufOpt rngSeq (scalarChunks (amount.getD 1) n) 0 ++ [[mainSeq 0]])

/-- The infinite-mode loop of an ASCII worker (lines 698–717): repeatedly
generate a fixed `SIMUL_BYTES * 128` byte buffer and attempt to flush it;
`sinkOk k` tells whether the worker's `k`-th write succeeds.  On the first
failed write the loop breaks and the worker returns normally.  Returns the
buffers whose write was attempted and whether the loop has exited (`false`
means the fuel ran out while the loop was still producing). -/
def streamAsciiWorker (sinkOk : Nat → Bool) (chars : List Nat) :
    Nat → Nat → Rng → List (List Nat) × Bool
  | 0, _, _ => ([], false)
  | fuel + 1, k, rng =>
    let (w, rng', _) := genAscii8 (SIMUL_BYTES * 128 / SIMUL_BYTES) chars rng
    if sinkOk k then
      let (ws, stopped) := streamAsciiWorker sinkOk chars fuel (k + 1) rng'
      (w :: ws, stopped)
    else ([w], true)

theorem incAt_length (cs : List Nat) (k : Nat) : (incAt cs k).length = cs.length := by
  induction cs generalizing k with
  | nil => simp [incAt]
  | cons x xs ih =>
    cases k with
    | zero => simp [incAt]
    | succ k => simp [incAt, ih]

theorem incAt_sum (cs : List Nat) (k : Nat) (h : k < cs.length) :
    (incAt cs k).sum = cs.sum + 1 := by
  induction cs generalizing k with
  | nil => simp at h
  | cons x xs ih =>
    cases k with
    | zero => simp [incAt]; omega
    | succ k =>
      have := ih k (by simpa using h)
      simp [incAt, this]; omega

theorem roundRobin_succ (n : Nat) (cs : List Nat) (a : Nat) :
    roundRobin n cs (a + 1) = incAt (roundRobin n cs a) (a % n) := by
  unfold roundRobin
  rw [List.range_succ, List.foldl_append]
  simp

theorem roundRobin_length (n : Nat) (cs : List Nat) (a : Nat) :
    (roundRobin n cs a).length = cs.length := by
  induction a with
  | zero => simp [roundRobin]
  | succ a ih => rw [roundRobin_succ, incAt_length, ih]

theorem roundRobin_sum (n : Nat) (cs : List Nat) (a : Nat) (hn : cs.length = n)
    (hpos : 0 < n) : (roundRobin n cs a).sum = cs.sum + a := by
  induction a with
  | zero => simp [roundRobin]
  | succ a ih =>
    rw [roundRobin_succ,
      incAt_sum _ _ (by rw [roundRobin_length n cs a, hn]; exact Nat.mod_lt _ hpos), ih]
    omega

theorem sum_map_mul (l : List Nat) (c : Nat) : (l.map (· * c)).sum = l.sum * c := by
  induction l with
  | nil => simp
  | cons x xs ih => simp [ih, Nat.add_mul]

theorem asciiChunks_sum (total n : Nat) (hpos : 0 < n) :
    (asciiChunks total n).sum = n * (total / (n * SIMUL_BYTES)) +
      total % (n * SIMUL_BYTES) / SIMUL_BYTES := by
  unfold asciiChunks
  simp only []
  split
  · rw [roundRobin_sum n _ _ (by simp) hpos]
    simp [List.sum_replicate, Nat.smul_one_eq_cast]
  · rename_i h
    have h8 : total % (n * SIMUL_BYTES) / SIMUL_BYTES = 0 :=
      Nat.div_eq_of_lt (Nat.lt_of_not_le h)
    rw [h8, List.sum_replicate]
    simp

theorem asciiByteChunks_total (total n : Nat) (hpos : 0 < n) :
    (asciiChunks total n).sum * SIMUL_BYTES + asciiLeftover total n = total := by
  unfold asciiLeftover
  rw [asciiChunks_sum total n hpos]
  have hdm : n * SIMUL_BYTES * (total / (n * SIMUL_BYTES)) +
      total % (n * SIMUL_BYTES) = total := Nat.div_add_mod _ _
  have hdm2 : SIMUL_BYTES * (total % (n * SIMUL_BYTES) / SIMUL_BYTES) +
      total % (n * SIMUL_BYTES) % SIMUL_BYTES = total % (n * SIMUL_BYTES) :=
    Nat.div_add_mod _ _
  have hq : n * SIMUL_BYTES * (total / (n * SIMUL_BYTES)) =
      n * (total / (n * SIMUL_BYTES)) * SIMUL_BYTES := by ring
  rw [hq] at hdm
  generalize n * (total / (n * SIMUL_BYTES)) = nq at hdm ⊢
  unfold SIMUL_BYTES at hdm hdm2 ⊢
  omega

theorem unicodeChunks_sum_eq (total n m : Nat) (hpos : 0 < n) (hdvd : m ∣ total) :
    (unicodeChunks total n m).sum = total := by
  have hrem : (total / m) % n < n := Nat.mod_lt _ hpos
  unfold unicodeChunks
  simp only []
  rw [List.take_replicate, List.map_replicate, List.drop_replicate, List.sum_append,
    List.sum_replicate, List.sum_replicate, Nat.min_eq_left (Nat.le_of_lt hrem),
    smul_eq_mul, smul_eq_mul]
  have hbase : total / (n * m) = total / m / n := by
    rw [Nat.mul_comm n m, ← Nat.div_div_eq_div_mul]
  rw [hbase]
  have hq : n * (total / m / n) + (total / m) % n = total / m := Nat.div_add_mod _ _
  have hmq : m * (total / m) = total := Nat.mul_div_cancel' hdvd
  have expand : (total / m) % n * (total / m / n * m + m) +
      (n - (total / m) % n) * (total / m / n * m) =
      (n * (total / m / n) + (total / m) % n) * m := by
    zify [Nat.le_of_lt hrem]
    ring
  rw [expand, hq]
  rw [Nat.mul_comm] at hmq
  exact hmq

theorem unicodeChunks_dvd (total n m : Nat) :
    ∀ c ∈ unicodeChunks total n m, m ∣ c := by
  intro c hc
  unfold unicodeChunks at hc
  simp only [List.take_replicate, List.map_replicate, List.drop_replicate,
    List.mem_append, List.mem_replicate] at hc
  rcases hc with ⟨_, rfl⟩ | ⟨_, rfl⟩
  · exact ⟨total / (n * m) + 1, by ring⟩
  · exact ⟨total / (n * m), by ring⟩

/-- Claim C2: for every non-negative total, worker count `n ≥ 1` and atomic
unit size (8 for the batched ASCII path, 1/2/4 for UTF-8/16/32), the chunk
plan satisfies `sum(chunks) + leftover == total` with `leftover <
atomic_unit_size`, and each chunk is a multiple of the atomic unit size.
(For the Unicode planner, `total` divisible by the atomic unit is exactly the
domain on which the plan is built: `generate_unicode` rejects any other total
before planning, and the plan has no leftover.) -/
theorem C2_chunk_sum :
    (∀ total n, 0 < n →
      (asciiByteChunks total n).sum + asciiLeftover total n = total ∧
      asciiLeftover total n < SIMUL_BYTES ∧
      ∀ c ∈ asciiByteChunks total n, SIMUL_BYTES ∣ c) ∧
    (∀ total n m, 0 < n → (m = 1 ∨ m = 2 ∨ m = 4) → m ∣ total →
      (unicodeChunks total n m).sum = total ∧
      ∀ c ∈ unicodeChunks total n m, m ∣ c) := by
  constructor
  · intro total n hpos
    refine ⟨?_, ?_, ?_⟩
    · unfold asciiByteChunks
      rw [sum_map_mul]
      exact asciiByteChunks_total total n hpos
    · exact Nat.mod_lt _ (by unfold SIMUL_BYTES; omega)
    · intro c hc
      unfold asciiByteChunks at hc
      obtain ⟨d, _, rfl⟩ := List.mem_map.mp hc
      exact dvd_mul_left SIMUL_BYTES d
  · intro total n m hpos _ hdvd
    exact ⟨unicodeChunks_sum_eq total n m hpos hdvd, unicodeChunks_dvd total n m⟩

/-- Concrete instance of `C2_chunk_sum`: ASCII plan for `total = 13`, two
workers; Unicode plan for `total = 12`, two workers, UTF-32. -/
theorem C2_chunk_sum_witness :
    (0 < 2 ∧
      ((asciiByteChunks 13 2).sum + asciiLeftover 13 2 = 13 ∧
       asciiLeftover 13 2 < SIMUL_BYTES ∧
       ∀ c ∈ asciiByteChunks 13 2, SIMUL_BYTES ∣ c)) ∧
    (0 < 2 ∧ (2 = 1 ∨ 2 = 2 ∨ 2 = 4) ∧ (2 : Nat) ∣ 12 ∧
      ((unicodeChunks 12 2 2).sum = 12 ∧ ∀ c ∈ unicodeChunks 12 2 2, 2 ∣ c)) :=
  ⟨⟨by decide, C2_chunk_sum.1 13 2 (by decide)⟩,
   ⟨by decide, by decide, by decide, C2_chunk_sum.2 12 2 2 (by decide) (by decide) (by decide)⟩⟩

theorem u64Bytes_length (v : Nat) : (u64Bytes v).length = 8 := by
  simp [u64Bytes]

theorem genAscii8_length (longs : Nat) (chars : List Nat) (rng : Rng) :
    (genAscii8 longs chars rng).1.length = longs * SIMUL_BYTES := by
  induction longs generalizing rng with
  | zero => simp [genAscii8]
  | succ l ih =>
    simp only [genAscii8, List.length_append, List.length_map, u64Bytes_length, ih]
    unfold SIMUL_BYTES
    ring

theorem genAsciiBytes_length (k : Nat) (chars : List Nat) (rng : Rng) :
    (genAsciiBytes k chars rng).1.length = k := by
  induction k generalizing rng with
  | zero => simp [genAsciiBytes]
  | succ k ih => simp [genAsciiBytes, ih]

theorem asciiRounds_length (r bufLongs : Nat) (chars : List Nat) (rng : Rng) :
    (asciiRounds r bufLongs chars rng).1.flatten.length = r * (bufLongs * SIMUL_BYTES) := by
  induction r generalizing rng with
  | zero => simp [asciiRounds]
  | succ r ih =>
    simp only [asciiRounds, List.flatten_cons, List.length_append, genAscii8_length, ih]
    ring

theorem asciiWorker_length (byteCount bufSize : Nat) (chars : List Nat) (rng : Rng)
    (hbc : SIMUL_BYTES ∣ byteCount) (hb : SIMUL_BYTES ∣ bufSize) :
    (asciiWorker byteCount bufSize chars rng).1.flatten.length = byteCount := by
  have hrem : SIMUL_BYTES ∣ byteCount % bufSize := (Nat.dvd_mod_iff hb).mpr hbc
  have hdm : byteCount / bufSize * bufSize + byteCount % bufSize = byteCount :=
    Nat.div_add_mod' _ _
  have hbl : bufSize / SIMUL_BYTES * SIMUL_BYTES = bufSize := Nat.div_mul_cancel hb
  have hremSimul : byteCount % bufSize / SIMUL_BYTES * SIMUL_BYTES = byteCount % bufSize :=
    Nat.div_mul_cancel hrem
  unfold asciiWorker
  simp only []
  split
  · rename_i hlt
    have hz : byteCount % bufSize = 0 := Nat.eq_zero_of_dvd_of_lt hrem hlt
    rw [asciiRounds_length, hbl]
    omega
  · rename_i hge
    simp only [List.flatten_append, List.flatten_cons, List.flatten_nil,
      List.length_append, asciiRounds_length, genAscii8_length, genAsciiBytes_length,
      List.append_nil, hbl, hremSimul]
    omega

theorem asciiWorkers_length (bufOpt : Option Nat) (chars : List Nat)
    (rngSeq : Nat → Nat → Nat)
    (hbuf : ∀ b, bufOpt = some b → SIMUL_BYTES ∣ b) :
    ∀ chunks i, (asciiWorkers bufOpt chars rngSeq chunks i).1.flatten.length =
      chunks.sum * SIMUL_BYTES := by
  intro chunks
  induction chunks with
  | nil => intro i; simp [asciiWorkers]
  | cons chunk rest ih =>
    intro i
    unfold asciiWorkers
    simp only []
    split
    · rename_i h0
      rw [ih (i + 1), h0]
      simp
    · rename_i h0
      have hworker : (asciiWorker (chunk * SIMUL_BYTES) (bufOpt.getD (chunk * SIMUL_BYTES))
          chars ⟨rngSeq i, 0⟩).1.flatten.length = chunk * SIMUL_BYTES := by
        apply asciiWorker_length
        · exact dvd_mul_left SIMUL_BYTES chunk
        · cases hb : bufOpt with
          | none => simp only [hb, Option.getD]; exact dvd_mul_left SIMUL_BYTES chunk
          | some b => simpa [hb] using hbuf b hb
      simp only [List.flatten_append, List.length_append, hworker, ih (i + 1), List.sum_cons]
      ring

theorem getD_mem_of_ne_nil (chars : List Nat) (v : Nat) (h : chars ≠ []) :
    chars.getD (v % chars.length) 0 ∈ chars := by
  have hlen : 0 < chars.length := List.length_pos.mpr h
  have hlt : v % chars.length < chars.length := Nat.mod_lt _ hlen
  rw [List.getD_eq_getElem chars 0 hlt]
  exact List.getElem_mem hlt

theorem genAscii8_mem (longs : Nat) (chars : List Nat) (rng : Rng) (hne : chars ≠ []) :
    ∀ b ∈ (genAscii8 longs chars rng).1, ∃ c ∈ chars, b = c % 256 := by
  induction longs generalizing rng with
  | zero => simp [genAscii8]
  | succ l ih =>
    intro b hb
    simp only [genAscii8, List.mem_append, List.mem_map] at hb
    rcases hb with ⟨u, _, rfl⟩ | hb
    · exact ⟨_, getD_mem_of_ne_nil chars _ hne, rfl⟩
    · exact ih _ b hb

theorem genAsciiBytes_mem (k : Nat) (chars : List Nat) (rng : Rng) (hne : chars ≠ []) :
    ∀ b ∈ (genAsciiBytes k chars rng).1, ∃ c ∈ chars, b = c % 256 := by
  induction k generalizing rng with
  | zero => simp [genAsciiBytes]
  | succ k ih =>
    intro b hb
    simp only [genAsciiBytes, List.mem_cons] at hb
    rcases hb with rfl | hb
    · exact ⟨_, getD_mem_of_ne_nil chars _ hne, rfl⟩
    · exact ih _ b hb

theorem asciiRounds_mem (r bufLongs : Nat) (chars : List Nat) (rng : Rng) (hne : chars ≠ []) :
    ∀ w ∈ (asciiRounds r bufLongs chars rng).1, ∀ b ∈ w, ∃ c ∈ chars, b = c % 256 := by
  induction r generalizing rng with
  | zero => simp [asciiRounds]
  | succ r ih =>
    intro w hw
    simp only [asciiRounds, List.mem_cons] at hw
    rcases hw with rfl | hw
    · exact genAscii8_mem _ chars _ hne
    · exact ih _ w hw

theorem asciiWorker_mem (byteCount bufSize : Nat) (chars : List Nat) (rng : Rng)
    (hne : chars ≠ []) :
    ∀ w ∈ (asciiWorker byteCount bufSize chars rng).1, ∀ b ∈ w, ∃ c ∈ chars, b = c % 256 := by
  unfold asciiWorker
  simp only []
  split
  · exact asciiRounds_mem _ _ chars _ hne
  · intro w hw
    simp only [List.mem_append, List.mem_cons, List.not_mem_nil, or_false] at hw
    rcases hw with hw | rfl
    · exact asciiRounds_mem _ _ chars _ hne w hw
    · intro b hb
      rcases List.mem_append.mp hb with hb | hb
      · exact genAscii8_mem _ chars _ hne b hb
      · exact genAsciiBytes_mem _ chars _ hne b hb

theorem asciiWorkers_mem (bufOpt : Option Nat) (chars : List Nat)
    (rngSeq : Nat → Nat → Nat) (hne : chars ≠ []) :
    ∀ chunks i, ∀ w ∈ (asciiWorkers bufOpt chars rngSeq chunks i).1,
      ∀ b ∈ w, ∃ c ∈ chars, b = c % 256 := by
  intro chunks
  induction chunks with
  | nil => intro i; simp [asciiWorkers]
  | cons chunk rest ih =>
    intro i w hw
    unfold asciiWorkers at hw
    simp only [] at hw
    split at hw
    · exact ih (i + 1) w hw
    · rcases List.mem_append.mp hw with hw | hw
      · exact asciiWorker_mem _ _ chars _ hne w hw
      · exact ih (i + 1) w hw

theorem utf8Encode_length (c : Nat) : (utf8Encode c).length = utf8Len c := by
  unfold utf8Encode utf8Len
  split_ifs <;> rfl

theorem utf16LEEncode_length (c : Nat) : (utf16LEEncode c).length = utf16Units c * 2 := by
  unfold utf16LEEncode utf16Units
  split_ifs <;> rfl

theorem u32LEBytes_length (c : Nat) : (u32LEBytes c).length = 4 := rfl

theorem guardedLoop_length (lenFn : Nat → Nat) (encFn : Nat → List Nat)
    (hlen : ∀ c, (encFn c).length = lenFn c) (fuel : Nat) :
    ∀ budget current chars rng acc w rng',
      guardedLoop lenFn encFn fuel budget current chars rng acc = some (w, rng') →
      acc.length = current → current ≤ budget → w.length = budget := by
  induction fuel with
  | zero =>
    intro budget current chars rng acc w rng' h hacc hle
    unfold guardedLoop at h
    split at h
    · exact absurd h (by simp)
    · rename_i hge
      obtain ⟨rfl, rfl⟩ : acc = w ∧ rng = rng' := by
        simpa using h
      omega
  | succ fuel ih =>
    intro budget current chars rng acc w rng' h hacc hle
    unfold guardedLoop at h
    split at h
    · rename_i hlt
      split at h
      · rename_i hfit
        exact ih budget _ chars _ _ w rng' h (by simp [hacc, hlen]) hfit
      · exact ih budget current chars _ acc w rng' h hacc hle
    · rename_i hge
      obtain ⟨rfl, rfl⟩ : acc = w ∧ rng = rng' := by
        simpa using h
      omega

theorem utf32Loop_length (fuel : Nat) :
    ∀ budget current chars rng acc w rng',
      utf32Loop fuel budget current chars rng acc = some (w, rng') →
      acc.length = current → current ≤ budget → 4 ∣ budget - current →
      w.length = budget := by
  induction fuel with
  | zero =>
    intro budget current chars rng acc w rng' h hacc hle _
    unfold utf32Loop at h
    split at h
    · exact absurd h (by simp)
    · rename_i hge
      obtain ⟨rfl, rfl⟩ : acc = w ∧ rng = rng' := by
        simpa using h
      omega
  | succ fuel ih =>
    intro budget current chars rng acc w rng' h hacc hle hdvd
    unfold utf32Loop at h
    split at h
    · rename_i hlt
      have hge4 : current + 4 ≤ budget := by
        obtain ⟨d, hd⟩ := hdvd
        omega
      refine ih budget (current + 4) chars _ _ w rng' h (by simp [hacc, u32LEBytes_length]) hge4 ?_
      obtain ⟨d, hd⟩ := hdvd
      exact ⟨d - 1, by omega⟩
    · rename_i hge
      obtain ⟨rfl, rfl⟩ : acc = w ∧ rng = rng' := by
        simpa using h
      omega

theorem genRandomUnicode_length (enc : UEncoding) (fuel budget : Nat)
    (chars : List Nat) (rng : Rng) (w : List Nat) (rng' : Rng)
    (hdvd : encWidth enc ∣ budget)
    (h : genRandomUnicode enc fuel 0 budget chars rng = some (w, rng')) :
    w.length = budget := by
  cases enc with
  | utf8 =>
    exact guardedLoop_length utf8Len utf8Encode utf8Encode_length fuel budget 0 chars rng []
      w rng' h rfl (Nat.zero_le _)
  | utf16 =>
    exact guardedLoop_length _ utf16LEEncode utf16LEEncode_length fuel budget 0 chars rng []
      w rng' h rfl (Nat.zero_le _)
  | utf32 =>
    exact utf32Loop_length fuel budget 0 chars rng [] w rng' h rfl (Nat.zero_le _)
      (by simpa using hdvd)

theorem unicodeRounds_length (enc : UEncoding) (fuel : Nat) (m : Nat)
    (hm : m = encWidth enc) :
    ∀ r bufSize chars rng ws rng', m ∣ bufSize →
      unicodeRounds enc fuel r bufSize chars rng = some (ws, rng') →
      ws.flatten.length = r * bufSize := by
  intro r
  induction r with
  | zero =>
    intro bufSize chars rng ws rng' _ h
    obtain ⟨rfl, rfl⟩ : ([] : List (List Nat)) = ws ∧ rng = rng' := by
      simpa [unicodeRounds] using h
    simp
  | succ r ih =>
    intro bufSize chars rng ws rng' hdvd h
    unfold unicodeRounds at h
    split at h
    · exact absurd h (by simp)
    · rename_i w rng1 hw
      split at h
      · exact absurd h (by simp)
      · rename_i ws1 rng2 hws
        obtain ⟨rfl, rfl⟩ : w :: ws1 = ws ∧ rng2 = rng' := by
          simpa using h
        have h1 : w.length = bufSize :=
          genRandomUnicode_length enc fuel bufSize chars rng w rng1 (hm ▸ hdvd) hw
        have h2 : ws1.flatten.length = r * bufSize :=
          ih bufSize chars rng1 ws1 rng2 hdvd hws
        simp [h1, h2]
        ring

theorem unicodeWorker_length (enc : UEncoding) (fuel chunkSize bufSize m : Nat)
    (chars : List Nat) (rng : Rng) (ws : List (List Nat))
    (hm : m = encWidth enc) (hc : m ∣ chunkSize) (hb : m ∣ bufSize)
    (h : unicodeWorker enc fuel chunkSize bufSize m chars rng = some ws) :
    ws.flatten.length = chunkSize := by
  have hrem : m ∣ chunkSize % bufSize := (Nat.dvd_mod_iff hb).mpr hc
  have hdm : chunkSize / bufSize * bufSize + chunkSize % bufSize = chunkSize :=
    Nat.div_add_mod' _ _
  unfold unicodeWorker at h
  split at h
  · exact absurd h (by simp)
  · rename_i ws1 rng1 hws1
    have h1 : ws1.flatten.length = chunkSize / bufSize * bufSize :=
      unicodeRounds_length enc fuel m hm _ bufSize chars rng ws1 rng1 hb hws1
    split at h
    · rename_i hlt
      have hz : chunkSize % bufSize = 0 := Nat.eq_zero_of_dvd_of_lt hrem hlt
      obtain rfl : ws1 = ws := by simpa using h
      omega
    · rename_i hge
      split at h
      · exact absurd h (by simp)
      · rename_i w rng2 hw
        obtain rfl : ws1 ++ [w] = ws := by simpa using h
        have h2 : w.length = chunkSize % bufSize :=
          genRandomUnicode_length enc fuel _ chars rng1 w rng2 (hm ▸ hrem) hw
        simp [List.flatten_append, h1, h2]
        omega

theorem unicodeWorkers_length (enc : UEncoding) (fuel : Nat) (bufOpt : Option Nat)
    (m : Nat) (chars : List Nat) (rngSeq : Nat → Nat → Nat)
    (hm : m = encWidth enc) (hbuf : ∀ b, bufOpt = some b → m ∣ b) :
    ∀ chunks i ws, (∀ c ∈ chunks, m ∣ c) →
      unicodeWorkers enc fuel bufOpt m chars rngSeq chunks i = some ws →
      ws.flatten.length = chunks.sum := by
  intro chunks
  induction chunks with
  | nil =>
    intro i ws _ h
    obtain rfl : ([] : List (List Nat)) = ws := by simpa [unicodeWorkers] using h
    simp
  | cons chunk rest ih =>
    intro i ws hdvd h
    unfold unicodeWorkers at h
    split at h
    · exact absurd h (by simp)
    · rename_i restWs hrest
      have hrestLen : restWs.flatten.length = rest.sum :=
        ih (i + 1) restWs (fun c hcc => hdvd c (List.mem_cons_of_mem _ hcc)) hrest
      split at h
      · rename_i h0
        obtain rfl : restWs = ws := by simpa using h
        simp [hrestLen, h0]
      · rename_i h0
        split at h
        · exact absurd h (by simp)
        · rename_i ws1 hws1
          obtain rfl : ws1 ++ restWs = ws := by simpa using h
          have hbd : m ∣ bufOpt.getD chunk := by
            cases hb : bufOpt with
            | none => simpa using hdvd chunk (List.mem_cons_self _ _)
            | some b => simpa using hbuf b hb
          have h1 : ws1.flatten.length = chunk :=
            unicodeWorker_length enc fuel chunk (bufOpt.getD chunk) m chars ⟨rngSeq i, 0⟩
              ws1 hm (hdvd chunk (List.mem_cons_self _ _)) hbd hws1
          simp [List.flatten_append, h1, hrestLen]

theorem genValues_length (k : Nat) (rng : Rng) : (genValues k rng).1.length = k := by
  induction k generalizing rng with
  | zero => simp [genValues]
  | succ k ih => simp [genValues, ih]

theorem scalarRounds_length (r buf : Nat) (rng : Rng) :
    (scalarRounds r buf rng).1.flatten.length = r * buf := by
  induction r generalizing rng with
  | zero => simp [scalarRounds]
  | succ r ih =>
    simp only [scalarRounds, List.flatten_cons, List.length_append, genValues_length, ih]
    ring

theorem scalarWorker_length (chunk buf : Nat) (rng : Rng) :
    (scalarWorker chunk buf rng).flatten.length = chunk := by
  have hdm : chunk / buf * buf + chunk % buf = chunk := Nat.div_add_mod' _ _
  unfold scalarWorker
  simp only []
  split
  · rename_i hz
    rw [scalarRounds_length]
    omega
  · rename_i hnz
    simp only [List.flatten_append, List.flatten_cons, List.flatten_nil, List.append_nil,
      List.length_append, scalarRounds_length, genValues_length]
    omega

theorem scalarWorkers_length (n : Nat) (bufOpt : Option Nat) (rngSeq : Nat → Nat → Nat) :
    ∀ chunks i, (scalarWorkers n bufOpt rngSeq chunks i).flatten.length = chunks.sum := by
  intro chunks
  induction chunks with
  | nil => intro i; simp [scalarWorkers]
  | cons chunk rest ih =>
    intro i
    unfold scalarWorkers
    simp only []
    split
    · rename_i h0
      rw [ih (i + 1), h0]
      simp
    · simp only [List.flatten_append, List.length_append, scalarWorker_length, ih (i + 1),
        List.sum_cons]

theorem incAt_getD0 (cs : List Nat) (k : Nat) : cs.getD 0 0 ≤ (incAt cs k).getD 0 0 := by
  cases cs with
  | nil => simp [incAt]
  | cons x xs =>
    cases k with
    | zero => simp [incAt]
    | succ k => simp [incAt]

theorem incAt_zero_getD0 (cs : List Nat) (hne : cs ≠ []) :
    (incAt cs 0).getD 0 0 = cs.getD 0 0 + 1 := by
  cases cs with
  | nil => exact absurd rfl hne
  | cons x xs => simp [incAt]

theorem roundRobin_getD0 (n : Nat) (cs : List Nat) (a : Nat) (ha : 0 < a) (hne : cs ≠ []) :
    cs.getD 0 0 + 1 ≤ (roundRobin n cs a).getD 0 0 := by
  induction a with
  | zero => omega
  | succ a ih =>
    rw [roundRobin_succ]
    rcases Nat.eq_zero_or_pos a with h0 | hpos
    · subst h0
      have h1 : roundRobin n cs 0 = cs := rfl
      rw [h1, Nat.zero_mod, incAt_zero_getD0 cs hne]
    · calc cs.getD 0 0 + 1 ≤ (roundRobin n cs a).getD 0 0 := ih hpos
        _ ≤ (incAt (roundRobin n cs a) (a % n)).getD 0 0 := incAt_getD0 _ _

theorem decHead_sum (cs : List Nat) (h : 1 ≤ cs.getD 0 0) :
    (decHead cs).sum = cs.sum - 1 := by
  cases cs with
  | nil => simp at h
  | cons x xs =>
    simp only [decHead, List.sum_cons]
    have hx : (x :: xs).getD 0 0 = x := rfl
    rw [hx] at h
    omega

theorem replicate_getD0 (n q : Nat) (hn : 0 < n) :
    (List.replicate n q).getD 0 0 = q := by
  cases n with
  | zero => omega
  | succ n => simp [List.replicate]

theorem scalarChunks_sum (amount n : Nat) (hn : 0 < n) (ha : 0 < amount) :
    (scalarChunks amount n).sum = amount - 1 := by
  have hdm : n * (amount / n) + amount % n = amount := Nat.div_add_mod _ _
  have hrepl : (List.replicate n (amount / n)).sum = n * (amount / n) := by
    rw [List.sum_replicate, smul_eq_mul]
  have hne : List.replicate n (amount / n) ≠ [] := by
    cases n with
    | zero => omega
    | succ n => simp [List.replicate]
  unfold scalarChunks
  simp only []
  split
  · rename_i hrem
    have hsum : (roundRobin n (List.replicate n (amount / n)) (amount % n)).sum = amount := by
      rw [roundRobin_sum n _ _ (by simp) hn, hrepl]
      omega
    have hhead : 1 ≤ (roundRobin n (List.replicate n (amount / n)) (amount % n)).getD 0 0 := by
      have := roundRobin_getD0 n (List.replicate n (amount / n)) (amount % n) hrem hne
      omega
    rw [decHead_sum _ hhead, hsum]
  · rename_i hrem
    have hq : 0 < amount / n := by
      rcases Nat.eq_zero_or_pos (amount / n) with h0 | hpos
      · rw [h0] at hdm; omega
      · exact hpos
    have hhead : 1 ≤ (List.replicate n (amount / n)).getD 0 0 := by
      rw [replicate_getD0 n _ hn]; omega
    rw [decHead_sum _ hhead, hrepl]
    omega

theorem runAscii_ok (sz : ByteSize) (charset : Option (List Nat)) (printableOnly : Bool)
    (exclude excludeCodes : Option (List Nat)) (n : Nat) (bufSize : Option ByteSize)
    (daemon : Bool) (rngSeq : Nat → Nat → Nat) (leftSeq : Nat → Nat)
    (ws : List (List Nat)) (p : Nat) (hn : 0 < n)
    (h : runAscii (some sz) charset printableOnly exclude excludeCodes n bufSize daemon
      rngSeq leftSeq = .ok (some (ws, p))) :
    ws.flatten.length = sz.toBytes := by
  unfold runAscii at h
  simp only [Option.isNone_some, Bool.and_false, Option.getD_some, Bool.false_eq_true,
    if_false] at h
  split at h
  · exact absurd h (by simp)
  · rename_i hbufOk
    split at h
    · exact absurd h (by simp)
    · rename_i hne
      have hbuf : ∀ b', ((bufSize.map fun b => b.toBytes / n).map
          fun b => b / SIMUL_BYTES * SIMUL_BYTES) = some b' → SIMUL_BYTES ∣ b' := by
        intro b' hb'
        rcases Option.map_eq_some'.mp hb' with ⟨d, _, rfl⟩
        exact dvd_mul_left SIMUL_BYTES _
      split at h
      · rename_i hleft
        simp only [Except.ok.injEq, Option.some.injEq, Prod.mk.injEq] at h
        rw [← h.1]
        simp only [List.flatten_append, List.flatten_cons, List.flatten_nil, List.append_nil,
          List.length_append]
        rw [asciiWorkers_length _ _ _ hbuf _ 0, genAsciiBytes_length]
        have := asciiByteChunks_total sz.toBytes n hn
        omega
      · rename_i hleft
        simp only [Except.ok.injEq, Option.some.injEq] at h
        have hws : ws = (asciiWorkers ((bufSize.map fun b => b.toBytes / n).map
            fun b => b / SIMUL_BYTES * SIMUL_BYTES)
            (resolveAsciiChars charset printableOnly exclude excludeCodes) rngSeq
            (asciiChunks sz.toBytes n) 0).1 := by
          rw [h]
        rw [hws, asciiWorkers_length _ _ _ hbuf _ 0]
        have := asciiByteChunks_total sz.toBytes n hn
        omega

theorem runUnicode_ok (sz : ByteSize) (enc : UEncoding) (charset exclude : Option (List Nat))
    (n : Nat) (bufSize : Option ByteSize) (rngSeq : Nat → Nat → Nat) (fuel : Nat)
    (ws : List (List Nat)) (hn : 0 < n)
    (h : runUnicode (some sz) enc charset exclude n bufSize false rngSeq fuel =
      .ok (some ws)) :
    ws.flatten.length = sz.toBytes := by
  unfold runUnicode at h
  simp only [Bool.false_eq_true, if_false, Option.getD_some] at h
  split at h
  · exact absurd h (by simp)
  · rename_i hbufOk
    split at h
    · exact absurd h (by simp)
    · rename_i hsmall
      split at h
      · exact absurd h (by simp)
      · rename_i hmod
        split at h
        · exact absurd h (by simp)
        · rename_i hne
          split at h
          · exact absurd h (by simp)
          · rename_i ws1 hws1
            obtain rfl : ws1 = ws := by simpa using h
            have hdvd : encWidth enc ∣ sz.toBytes := by
              rcases Nat.eq_zero_or_pos (sz.toBytes % encWidth enc) with h0 | hpos
              · exact Nat.dvd_of_mod_eq_zero h0
              · exact absurd (by omega) hmod
            have hbuf : ∀ b', ((bufSize.map fun b => b.toBytes / n).map
                fun b => b / encWidth enc * encWidth enc) = some b' →
                encWidth enc ∣ b' := by
              intro b' hb'
              rcases Option.map_eq_some'.mp hb' with ⟨d, _, rfl⟩
              exact dvd_mul_left (encWidth enc) _
            rw [unicodeWorkers_length enc fuel _ (encWidth enc) _ rngSeq rfl hbuf _ 0 _
              (unicodeChunks_dvd _ _ _) hws1]
            exact unicodeChunks_sum_eq _ n _ hn hdvd

theorem runScalar_ok (amount : Option Nat) (n : Nat) (bufOpt : Option Nat) (daemon : Bool)
    (rngSeq : Nat → Nat → Nat) (mainSeq : Nat → Nat) (ws : List (List Nat))
    (hn : 0 < n) (ha : 0 < amount.getD 1)
    (h : runScalar amount n bufOpt daemon rngSeq mainSeq = some ws) :
    ws.flatten.length = amount.getD 1 := by
  unfold runScalar at h
  split at h
  · exact absurd h (by simp)
  · obtain rfl : scalarWorkers n bufOpt rngSeq (scalarChunks (amount.getD 1) n) 0 ++
        [[mainSeq 0]] = ws := by
      simpa using h
    simp only [List.flatten_append, List.flatten_cons, List.flatten_nil, List.append_nil,
      List.length_append, scalarWorkers_length]
    rw [scalarChunks_sum _ n hn ha]
    simp only [List.length_cons, List.length_nil]
    omega

/-- Claim C1: for every finite-mode request with a valid `(total,
worker_count, buffer_capacity)` combination, the total number of bytes
(ASCII/Unicode modes) or items (scalar modes) written to the shared sink
over the whole invocation — all worker flushes plus the serial leftover
write after join — equals the requested total exactly.  (A `.ok (some _)`
result is precisely a finite-mode run that passed the construction-time
checks and, for Unicode, whose retry loops all terminated.) -/
theorem C1_exactness :
    (∀ sz charset printableOnly exclude excludeCodes n bufSize daemon rngSeq leftSeq ws p,
      0 < n →
      runAscii (some sz) charset printableOnly exclude excludeCodes n bufSize daemon
        rngSeq leftSeq = .ok (some (ws, p)) →
      ws.flatten.length = sz.toBytes) ∧
    (∀ sz enc charset exclude n bufSize rngSeq fuel ws,
      0 < n →
      runUnicode (some sz) enc charset exclude n bufSize false rngSeq fuel =
        .ok (some ws) →
      ws.flatten.length = sz.toBytes) ∧
    (∀ amount n bufOpt daemon rngSeq mainSeq ws,
      0 < n → 0 < amount.getD 1 →
      runScalar amount n bufOpt daemon rngSeq mainSeq = some ws →
      ws.flatten.length = amount.getD 1) :=
  ⟨fun _ _ _ _ _ _ _ _ _ _ _ _ hn h =>
      runAscii_ok _ _ _ _ _ _ _ _ _ _ _ _ hn h,
   fun _ _ _ _ _ _ _ _ _ hn h => runUnicode_ok _ _ _ _ _ _ _ _ _ hn h,
   fun _ _ _ _ _ _ _ hn ha h => runScalar_ok _ _ _ _ _ _ _ hn ha h⟩

/-- Concrete instance of `C1_exactness`: 13 bytes of ASCII across two
workers (8 batched + 5 leftover), 3 bytes of UTF-8, and 5 scalar items. -/
theorem C1_exactness_witness :
    (0 < 2 ∧
      runAscii (some ⟨13, ByteUnit.B⟩) (some [97]) false none none 2 none false
        (fun _ _ => 0) (fun _ => 0) =
        .ok (some ([[97, 97, 97, 97, 97, 97, 97, 97], [97, 97, 97, 97, 97]], 48)) ∧
      ([[97, 97, 97, 97, 97, 97, 97, 97], [97, 97, 97, 97, 97]] :
        List (List Nat)).flatten.length = ByteSize.toBytes ⟨13, ByteUnit.B⟩) ∧
    (0 < 1 ∧
      runUnicode (some ⟨3, ByteUnit.B⟩) .utf8 (some [97]) none 1 none false
        (fun _ _ => 0) 3 = .ok (some [[97, 97, 97]]) ∧
      ([[97, 97, 97]] : List (List Nat)).flatten.length =
        ByteSize.toBytes ⟨3, ByteUnit.B⟩) ∧
    (0 < 2 ∧ 0 < (some 5 : Option Nat).getD 1 ∧
      runScalar (some 5) 2 none false (fun _ _ => 7) (fun _ => 9) =
        some [[7, 7], [7, 7], [9]] ∧
      ([[7, 7], [7, 7], [9]] : List (List Nat)).flatten.length =
        (some 5 : Option Nat).getD 1) :=
  ⟨⟨by decide, rfl,
    C1_exactness.1 ⟨13, ByteUnit.B⟩ (some [97]) false none none 2 none false
      (fun _ _ => 0) (fun _ => 0) [[97, 97, 97, 97, 97, 97, 97, 97], [97, 97, 97, 97, 97]]
      48 (by decide) rfl⟩,
   ⟨by decide, rfl,
    C1_exactness.2.1 ⟨3, ByteUnit.B⟩ .utf8 (some [97]) none 1 none (fun _ _ => 0) 3
      [[97, 97, 97]] (by decide) rfl⟩,
   ⟨by decide, by decide, rfl,
    C1_exactness.2.2 (some 5) 2 none false (fun _ _ => 7) (fun _ => 9)
      [[7, 7], [7, 7], [9]] (by decide) (by decide) rfl⟩⟩

/-- Claim C6 (refuted by the code): the requested total is 1 byte, exactly
one byte is written, yet the final progress-counter value is 8, because the
per-byte leftover generator `generate_random_ascii` increments the progress
bar by `SIMUL_BYTES` for every single byte it pushes (line 1002).  The
spec's "final value equals total" fails at every total not divisible by 8
when progress is enabled. -/
theorem C6_progress_overcount :
    runAscii (some ⟨1, ByteUnit.B⟩) (some [97]) false none none 1 none false
      (fun _ _ => 0) (fun _ => 0) = .ok (some ([[97]], 8)) ∧
    ([[97]] : List (List Nat)).flatten.length = 1 ∧ (8 : Nat) ≠ 1 :=
  ⟨rfl, rfl, by decide⟩

/-- Claim C10: for every Unicode-mode request with daemon (streaming) mode
enabled the operation aborts immediately with the daemon-unsupported panic —
the very first statement of `generate_unicode` — before the alphabet is
resolved, the size validated, or any worker spawned; this holds for every
combination of the remaining arguments, and the `.error` result carries no
output. -/
theorem C10_unicode_daemon_unsupported :
    ∀ size enc charset exclude n bufSize rngSeq fuel,
      runUnicode size enc charset exclude n bufSize true rngSeq fuel =
        .error .daemonUnsupported := by
  intro size enc charset exclude n bufSize rngSeq fuel
  rfl

theorem resolveAsciiChars_exclude (charset : Option (List Nat)) (printableOnly : Bool)
    (e : List Nat) (excludeCodes : Option (List Nat)) :
    ∀ c ∈ resolveAsciiChars charset printableOnly (some e) excludeCodes, c ∉ e := by
  intro c hc
  unfold resolveAsciiChars at hc
  cases excludeCodes with
  | none => simpa using (List.mem_filter.mp hc).2
  | some codes =>
    have h1 := (List.mem_filter.mp hc).1
    simpa using (List.mem_filter.mp h1).2

theorem resolveAsciiChars_codes (charset : Option (List Nat)) (printableOnly : Bool)
    (exclude : Option (List Nat)) (codes : List Nat) :
    ∀ c ∈ resolveAsciiChars charset printableOnly exclude (some codes), c % 256 ∉ codes := by
  intro c hc
  unfold resolveAsciiChars at hc
  simpa using (List.mem_filter.mp hc).2

theorem runAscii_ok_mem (sz : ByteSize) (charset : Option (List Nat)) (printableOnly : Bool)
    (exclude excludeCodes : Option (List Nat)) (n : Nat) (bufSize : Option ByteSize)
    (daemon : Bool) (rngSeq : Nat → Nat → Nat) (leftSeq : Nat → Nat)
    (ws : List (List Nat)) (p : Nat)
    (h : runAscii (some sz) charset printableOnly exclude excludeCodes n bufSize daemon
      rngSeq leftSeq = .ok (some (ws, p))) :
    ∀ w ∈ ws, ∀ b ∈ w,
      ∃ c ∈ resolveAsciiChars charset printableOnly exclude excludeCodes, b = c % 256 := by
  unfold runAscii at h
  simp only [Option.isNone_some, Bool.and_false, Option.getD_some, Bool.false_eq_true,
    if_false] at h
  split at h
  · exact absurd h (by simp)
  · rename_i hbufOk
    split at h
    · exact absurd h (by simp)
    · rename_i hemp
      have hne : resolveAsciiChars charset printableOnly exclude excludeCodes ≠ [] := by
        intro hcontra
        exact hemp (by simp [hcontra])
      split at h
      · rename_i hleft
        simp only [Except.ok.injEq, Option.some.injEq, Prod.mk.injEq] at h
        intro w hw
        rw [← h.1] at hw
        rcases List.mem_append.mp hw with hw | hw
        · exact asciiWorkers_mem _ _ rngSeq hne _ 0 w hw
        · have hw1 : w = (genAsciiBytes (asciiLeftover sz.toBytes n)
              (resolveAsciiChars charset printableOnly exclude excludeCodes)
              ⟨leftSeq, 0⟩).1 := by simpa using hw
          rw [hw1]
          exact genAsciiBytes_mem _ _ _ hne
      · rename_i hleft
        simp only [Except.ok.injEq, Option.some.injEq] at h
        intro w hw
        have hws : ws = (asciiWorkers ((bufSize.map fun b => b.toBytes / n).map
            fun b => b / SIMUL_BYTES * SIMUL_BYTES)
            (resolveAsciiChars charset printableOnly exclude excludeCodes) rngSeq
            (asciiChunks sz.toBytes n) 0).1 := by
          rw [h]
        rw [hws] at hw
        exact asciiWorkers_mem _ _ rngSeq hne _ 0 w hw

/-- Claim C5: for every finite ASCII-mode request, every byte written to the
sink is the byte truncation of some symbol of the resolved alphabet (the
charset or universe minus the exclusion string and excluded codes); the
resolved alphabet contains no excluded symbol, and no written byte is an
excluded code — on both the 8-byte batched path and the per-byte leftover
path. -/
theorem C5_alphabet_containment :
    ∀ sz charset printableOnly exclude excludeCodes n bufSize daemon rngSeq leftSeq ws p,
      runAscii (some sz) charset printableOnly exclude excludeCodes n bufSize daemon
        rngSeq leftSeq = .ok (some (ws, p)) →
      (∀ w ∈ ws, ∀ b ∈ w,
        ∃ c ∈ resolveAsciiChars charset printableOnly exclude excludeCodes, b = c % 256) ∧
      (∀ e, exclude = some e →
        ∀ c ∈ resolveAsciiChars charset printableOnly exclude excludeCodes, c ∉ e) ∧
      (∀ codes, excludeCodes = some codes → ∀ w ∈ ws, ∀ b ∈ w, b ∉ codes) := by
  intro sz charset printableOnly exclude excludeCodes n bufSize daemon rngSeq leftSeq ws p h
  have hmem := runAscii_ok_mem sz charset printableOnly exclude excludeCodes n bufSize
    daemon rngSeq leftSeq ws p h
  refine ⟨hmem, ?_, ?_⟩
  · intro e he
    subst he
    exact resolveAsciiChars_exclude charset printableOnly e excludeCodes
  · intro codes hcodes w hw b hb
    subst hcodes
    obtain ⟨c, hc, rfl⟩ := hmem w hw b hb
    exact resolveAsciiChars_codes charset printableOnly exclude codes c hc

/-- Concrete instance of `C5_alphabet_containment`: charset `"ab"`, exclusion
string `"b"`, excluded code 99; every written byte is 97 = `'a'`. -/
theorem C5_alphabet_containment_witness :
    runAscii (some ⟨13, ByteUnit.B⟩) (some [97, 98]) false (some [98]) (some [99]) 2 none
      false (fun _ _ => 0) (fun _ => 0) =
      .ok (some ([[97, 97, 97, 97, 97, 97, 97, 97], [97, 97, 97, 97, 97]], 48)) ∧
    ((∀ w ∈ ([[97, 97, 97, 97, 97, 97, 97, 97], [97, 97, 97, 97, 97]] : List (List Nat)),
        ∀ b ∈ w, ∃ c ∈ resolveAsciiChars (some [97, 98]) false (some [98]) (some [99]),
          b = c % 256) ∧
      (∀ e, (some [98] : Option (List Nat)) = some e →
        ∀ c ∈ resolveAsciiChars (some [97, 98]) false (some [98]) (some [99]), c ∉ e) ∧
      (∀ codes, (some [99] : Option (List Nat)) = some codes →
        ∀ w ∈ ([[97, 97, 97, 97, 97, 97, 97, 97], [97, 97, 97, 97, 97]] : List (List Nat)),
          ∀ b ∈ w, b ∉ codes)) :=
  ⟨rfl,
   C5_alphabet_containment ⟨13, ByteUnit.B⟩ (some [97, 98]) false (some [98]) (some [99])
     2 none false (fun _ _ => 0) (fun _ => 0)
     [[97, 97, 97, 97, 97, 97, 97, 97], [97, 97, 97, 97, 97]] 48 rfl⟩

/-- Claim C7: whenever the caller-supplied buffer capacity divided across
the workers is smaller than the active encoding's atomic unit, or (Unicode
modes) the requested total is smaller than — or not a multiple of — the
encoding's minimum symbol width, the run fails with the corresponding
configuration error; the `.error` result is produced before any worker is
modelled and carries no writes. -/
theorem C7_config_errors :
    (∀ size charset printableOnly exclude excludeCodes n b daemon rngSeq leftSeq,
      b.toBytes / n < SIMUL_BYTES →
      runAscii size charset printableOnly exclude excludeCodes n (some b) daemon
        rngSeq leftSeq = .error .configBuf) ∧
    (∀ size enc charset exclude n b rngSeq fuel,
      b.toBytes / n < encWidth enc →
      runUnicode size enc charset exclude n (some b) false rngSeq fuel =
        .error .configBuf) ∧
    (∀ sz enc charset exclude n bufSize rngSeq fuel,
      checkBuf (bufSize.map fun bb => bb.toBytes / n) (encWidth enc) = false →
      sz.toBytes < encWidth enc →
      runUnicode (some sz) enc charset exclude n bufSize false rngSeq fuel =
        .error .sizeTooSmall) ∧
    (∀ sz enc charset exclude n bufSize rngSeq fuel,
      checkBuf (bufSize.map fun bb => bb.toBytes / n) (encWidth enc) = false →
      encWidth enc ≤ sz.toBytes → sz.toBytes % encWidth enc ≠ 0 →
      runUnicode (some sz) enc charset exclude n bufSize false rngSeq fuel =
        .error .sizeNotDivisible) := by
  refine ⟨?_, ?_, ?_, ?_⟩
  · intro size charset printableOnly exclude excludeCodes n b daemon rngSeq leftSeq hlt
    have hc : checkBuf (some (b.toBytes / n)) SIMUL_BYTES = true :=
      decide_eq_true hlt
    simp [runAscii, hc]
  · intro size enc charset exclude n b rngSeq fuel hlt
    have hc : checkBuf (some (b.toBytes / n)) (encWidth enc) = true :=
      decide_eq_true hlt
    simp [runUnicode, hc]
  · intro sz enc charset exclude n bufSize rngSeq fuel hchk hsmall
    simp [runUnicode, hchk, hsmall]
  · intro sz enc charset exclude n bufSize rngSeq fuel hchk hle hmod
    have hnlt : ¬ sz.toBytes < encWidth enc := Nat.not_lt.mpr hle
    simp [runUnicode, hchk, hnlt, hmod]

/-- Concrete instances of `C7_config_errors`: a 4-byte buffer split over two
ASCII workers (2 < 8); the same for UTF-32 (2 < 4); a 1-byte UTF-16 request
(1 < 2); and a 3-byte UTF-16 request (3 not divisible by 2). -/
theorem C7_config_errors_witness :
    (ByteSize.toBytes ⟨4, ByteUnit.B⟩ / 2 < SIMUL_BYTES ∧
      runAscii (some ⟨8, ByteUnit.B⟩) none false none none 2 (some ⟨4, ByteUnit.B⟩) false
        (fun _ _ => 0) (fun _ => 0) = .error .configBuf) ∧
    (ByteSize.toBytes ⟨4, ByteUnit.B⟩ / 2 < encWidth .utf32 ∧
      runUnicode (some ⟨4, ByteUnit.B⟩) .utf32 (some [97]) none 2 (some ⟨4, ByteUnit.B⟩)
        false (fun _ _ => 0) 9 = .error .configBuf) ∧
    (checkBuf ((none : Option ByteSize).map fun bb => bb.toBytes / 1) (encWidth .utf16) =
        false ∧ ByteSize.toBytes ⟨1, ByteUnit.B⟩ < encWidth .utf16 ∧
      runUnicode (some ⟨1, ByteUnit.B⟩) .utf16 (some [97]) none 1 none false
        (fun _ _ => 0) 9 = .error .sizeTooSmall) ∧
    (checkBuf ((none : Option ByteSize).map fun bb => bb.toBytes / 1) (encWidth .utf16) =
        false ∧ encWidth .utf16 ≤ ByteSize.toBytes ⟨3, ByteUnit.B⟩ ∧
        ByteSize.toBytes ⟨3, ByteUnit.B⟩ % encWidth .utf16 ≠ 0 ∧
      runUnicode (some ⟨3, ByteUnit.B⟩) .utf16 (some [97]) none 1 none false
        (fun _ _ => 0) 9 = .error .sizeNotDivisible) :=
  ⟨⟨by decide,
    C7_config_errors.1 (some ⟨8, ByteUnit.B⟩) none false none none 2 ⟨4, ByteUnit.B⟩
      false (fun _ _ => 0) (fun _ => 0) (by decide)⟩,
   ⟨by decide,
    C7_config_errors.2.1 (some ⟨4, ByteUnit.B⟩) .utf32 (some [97]) none 2
      ⟨4, ByteUnit.B⟩ (fun _ _ => 0) 9 (by decide)⟩,
   ⟨by decide, by decide,
    C7_config_errors.2.2.1 ⟨1, ByteUnit.B⟩ .utf16 (some [97]) none 1 none
      (fun _ _ => 0) 9 (by decide) (by decide)⟩,
   ⟨by decide, by decide, by decide,
    C7_config_errors.2.2.2 ⟨3, ByteUnit.B⟩ .utf16 (some [97]) none 1 none
      (fun _ _ => 0) 9 (by decide) (by decide) (by decide)⟩⟩

/-- Claim C8: every request whose resolved alphabet is empty — and which
passes the checks the source performs earlier (the divided-buffer check, and
for Unicode daemon-off plus a valid size) — fails with the empty-alphabet
error; the `.error` result is produced before any worker is modelled and
carries no writes. -/
theorem C8_empty_alphabet :
    (∀ size charset printableOnly exclude excludeCodes n bufSize daemon rngSeq leftSeq,
      checkBuf (bufSize.map fun b => b.toBytes / n) SIMUL_BYTES = false →
      resolveAsciiChars charset printableOnly exclude excludeCodes = [] →
      runAscii size charset printableOnly exclude excludeCodes n bufSize daemon
        rngSeq leftSeq = .error .emptyAlphabet) ∧
    (∀ sz enc charset exclude n bufSize rngSeq fuel,
      checkBuf (bufSize.map fun b => b.toBytes / n) (encWidth enc) = false →
      encWidth enc ≤ sz.toBytes → sz.toBytes % encWidth enc = 0 →
      resolveUnicodeChars charset exclude = [] →
      runUnicode (some sz) enc charset exclude n bufSize false rngSeq fuel =
        .error .emptyAlphabet) := by
  constructor
  · intro size charset printableOnly exclude excludeCodes n bufSize daemon rngSeq leftSeq
      hchk hres
    simp [runAscii, hchk, hres]
  · intro sz enc charset exclude n bufSize rngSeq fuel hchk hle hmod hres
    have hnlt : ¬ sz.toBytes < encWidth enc := Nat.not_lt.mpr hle
    simp [runUnicode, hchk, hnlt, hmod, hres]

/-- Concrete instances of `C8_empty_alphabet`: charset `"a"` with exclusion
string `"a"` resolves to the empty alphabet in both modes. -/
theorem C8_empty_alphabet_witness :
    (checkBuf ((none : Option ByteSize).map fun b => b.toBytes / 2) SIMUL_BYTES = false ∧
      resolveAsciiChars (some [97]) false (some [97]) none = [] ∧
      runAscii (some ⟨8, ByteUnit.B⟩) (some [97]) false (some [97]) none 2 none false
        (fun _ _ => 0) (fun _ => 0) = .error .emptyAlphabet) ∧
    (checkBuf ((none : Option ByteSize).map fun b => b.toBytes / 1) (encWidth .utf8) =
        false ∧ encWidth .utf8 ≤ ByteSize.toBytes ⟨1, ByteUnit.B⟩ ∧
        ByteSize.toBytes ⟨1, ByteUnit.B⟩ % encWidth .utf8 = 0 ∧
      resolveUnicodeChars (some [97]) (some [97]) = [] ∧
      runUnicode (some ⟨1, ByteUnit.B⟩) .utf8 (some [97]) (some [97]) 1 none false
        (fun _ _ => 0) 9 = .error .emptyAlphabet) :=
  ⟨⟨by decide, by decide,
    C8_empty_alphabet.1 (some ⟨8, ByteUnit.B⟩) (some [97]) false (some [97]) none 2 none
      false (fun _ _ => 0) (fun _ => 0) (by decide) (by decide)⟩,
   ⟨by decide, by decide, by decide, by decide,
    C8_empty_alphabet.2 ⟨1, ByteUnit.B⟩ .utf8 (some [97]) (some [97]) 1 none
      (fun _ _ => 0) 9 (by decide) (by decide) (by decide) (by decide)⟩⟩

theorem streamAsciiWorker_stops (sinkOk : Nat → Bool) (chars : List Nat) :
    ∀ d fuel k0 rng, sinkOk (k0 + d) = false → (∀ j, j < d → sinkOk (k0 + j) = true) →
      d < fuel →
      (streamAsciiWorker sinkOk chars fuel k0 rng).2 = true ∧
      (streamAsciiWorker sinkOk chars fuel k0 rng).1.length = d + 1 := by
  intro d
  induction d with
  | zero =>
    intro fuel k0 rng hfail _ hfuel
    cases fuel with
    | zero => omega
    | succ fuel =>
      rw [Nat.add_zero] at hfail
      unfold streamAsciiWorker
      rw [hfail]
      simp
  | succ d ih =>
    intro fuel k0 rng hfail hok hfuel
    cases fuel with
    | zero => omega
    | succ fuel =>
      have h0 : sinkOk k0 = true := by
        have := hok 0 (by omega)
        simpa using this
      have hrec := ih fuel (k0 + 1)
        (genAscii8 (SIMUL_BYTES * 128 / SIMUL_BYTES) chars rng).2.1
        (by rw [show k0 + 1 + d = k0 + (d + 1) by omega]; exact hfail)
        (fun j hj => by
          rw [show k0 + 1 + j = k0 + (j + 1) by omega]
          exact hok (j + 1) (by omega))
        (by omega)
      unfold streamAsciiWorker
      rw [h0]
      simp only [if_true]
      constructor
      · exact hrec.1
      · simp [hrec.2]

/-- Claim C9: in streaming mode, once a worker's write to the sink fails,
that worker exits its generation loop and attempts no further writes, and it
terminates normally rather than raising an error (the result type of the
loop has no error outcome; `true` is the silent `break` of the source).  If
the first `k` writes succeed and write `k` fails, exactly `k + 1` writes are
ever attempted — the failing one and nothing after it.  The loop body and
`sinkOk` are per-worker state, so the termination is local to the observing
worker by construction. -/
theorem C9_streaming_resilience :
    ∀ (sinkOk : Nat → Bool) (chars : List Nat) (rng : Rng) (fuel k : Nat),
      sinkOk k = false → (∀ j, j < k → sinkOk j = true) → k < fuel →
      (streamAsciiWorker sinkOk chars fuel 0 rng).2 = true ∧
      (streamAsciiWorker sinkOk chars fuel 0 rng).1.length = k + 1 :=
  fun sinkOk chars rng fuel k hfail hok hfuel =>
    streamAsciiWorker_stops sinkOk chars k fuel 0 rng
      (by simpa using hfail) (fun j hj => by simpa using hok j hj) hfuel

/-- Concrete instance of `C9_streaming_resilience`: the sink accepts writes 0
and 1 and fails write 2; with fuel 5 the worker attempts exactly 3 writes and
exits its loop normally. -/
theorem C9_streaming_resilience_witness :
    ((fun j => decide (j < 2)) 2 = false ∧ (∀ j, j < 2 → (fun j => decide (j < 2)) j = true) ∧
      2 < 5) ∧
    (streamAsciiWorker (fun j => decide (j < 2)) [97] 5 0 ⟨fun _ => 0, 0⟩).2 = true ∧
    (streamAsciiWorker (fun j => decide (j < 2)) [97] 5 0 ⟨fun _ => 0, 0⟩).1.length = 2 + 1 :=
  ⟨⟨by decide, by decide, by decide⟩,
   C9_streaming_resilience (fun j => decide (j < 2)) [97] ⟨fun _ => 0, 0⟩ 5 2
     (by decide) (by decide) (by decide)⟩

/-- Claim C3: for every Unicode encoding, non-empty alphabet and byte budget
that is a multiple of the encoding's minimum symbol width, one call to
`generate_random_unicode` that returns (fuel-indexed: `some`) has produced
exactly the budget in bytes — never overshooting it.  The guarded loops
append a drawn symbol only when its encoded length keeps the running count
within the budget and discard the draw otherwise (this is the definition of
`guardedLoop`); the UTF-32 arm appends unconditionally, and the
divisibility hypothesis is what makes that never overshoot. -/
theorem C3_retry_until_fits :
    ∀ (enc : UEncoding) (fuel budget : Nat) (chars : List Nat) (rng : Rng)
      (w : List Nat) (rng' : Rng),
      chars ≠ [] → encWidth enc ∣ budget →
      genRandomUnicode enc fuel 0 budget chars rng = some (w, rng') →
      w.length = budget :=
  fun enc fuel budget chars rng w rng' _ hdvd h =>
    genRandomUnicode_length enc fuel budget chars rng w rng' hdvd h

/-- Concrete instance of `C3_retry_until_fits`: UTF-16, budget 4 bytes,
alphabet `"a"`; each draw encodes to 2 bytes and the call returns exactly 4
bytes. -/
theorem C3_retry_until_fits_witness :
    (([97] : List Nat) ≠ [] ∧ encWidth .utf16 ∣ 4 ∧
      genRandomUnicode .utf16 4 0 4 [97] ⟨fun _ => 0, 0⟩ =
        some ([97, 0, 97, 0], ⟨fun _ => 0, 2⟩)) ∧
    ([97, 0, 97, 0] : List Nat).length = 4 :=
  ⟨⟨by decide, by decide, rfl⟩,
   C3_retry_until_fits .utf16 4 4 [97] ⟨fun _ => 0, 0⟩ [97, 0, 97, 0] ⟨fun _ => 0, 2⟩
     (by decide) (by decide) rfl⟩

theorem utf32Decode_cons (b0 b1 b2 b3 : Nat) (rest : List Nat) :
    utf32Decode (b0 :: b1 :: b2 :: b3 :: rest) =
      if Nat.isValidChar (b0 + 256 * b1 + 65536 * b2 + 16777216 * b3) then
        Option.map (fun cs => (b0 + 256 * b1 + 65536 * b2 + 16777216 * b3) :: cs)
          (utf32Decode rest)
      else none := by
  rw [utf32Decode.eq_def]

theorem utf32Decode_encode (c : Nat) (h : Nat.isValidChar c) (rest : List Nat) :
    utf32Decode (u32LEBytes c ++ rest) = Option.map (fun cs => c :: cs) (utf32Decode rest) := by
  show utf32Decode (c % 256 :: c / 256 % 256 :: c / 65536 % 256 :: c / 16777216 % 256 :: rest) = _
  rw [utf32Decode_cons]
  have hrec : c % 256 + 256 * (c / 256 % 256) + 65536 * (c / 65536 % 256) +
      16777216 * (c / 16777216 % 256) = c := by omega
  rw [hrec, if_pos h]

theorem utf16Decode_cons (b0 b1 : Nat) (rest : List Nat) :
    utf16Decode (b0 :: b1 :: rest) =
      if b0 + 256 * b1 < 0xD800 ∨ 0xDFFF < b0 + 256 * b1 then
        Option.map (fun cs => (b0 + 256 * b1) :: cs) (utf16Decode rest)
      else if b0 + 256 * b1 < 0xDC00 then
        match rest with
        | c0 :: c1 :: rest2 =>
          if 0xDC00 ≤ c0 + 256 * c1 ∧ c0 + 256 * c1 ≤ 0xDFFF then
            Option.map (fun cs =>
              (0x10000 + (b0 + 256 * b1 - 0xD800) * 1024 + (c0 + 256 * c1 - 0xDC00)) :: cs)
              (utf16Decode rest2)
          else none
        | _ => none
      else none := by
  rw [utf16Decode.eq_def]

theorem utf16Decode_pair (b0 b1 c0 c1 : Nat) (rest : List Nat)
    (hs : ¬(b0 + 256 * b1 < 0xD800 ∨ 0xDFFF < b0 + 256 * b1))
    (hlow : b0 + 256 * b1 < 0xDC00) :
    utf16Decode (b0 :: b1 :: c0 :: c1 :: rest) =
      if 0xDC00 ≤ c0 + 256 * c1 ∧ c0 + 256 * c1 ≤ 0xDFFF then
        Option.map (fun cs =>
          (0x10000 + (b0 + 256 * b1 - 0xD800) * 1024 + (c0 + 256 * c1 - 0xDC00)) :: cs)
          (utf16Decode rest)
      else none := by
  rw [utf16Decode_cons, if_neg hs, if_pos hlow]

theorem utf16Decode_encode (c : Nat) (h : Nat.isValidChar c) (rest : List Nat) :
    utf16Decode (utf16LEEncode c ++ rest) =
      Option.map (fun cs => c :: cs) (utf16Decode rest) := by
  have hval : c < 0xD800 ∨ (0xDFFF < c ∧ c < 0x110000) := h
  by_cases hb : c < 0x10000
  · have henc : utf16LEEncode c = [c % 256, c / 256] := by
      unfold utf16LEEncode
      rw [if_pos hb]
    rw [henc]
    show utf16Decode (c % 256 :: c / 256 :: rest) = _
    rw [utf16Decode_cons]
    have hu : c % 256 + 256 * (c / 256) = c := by omega
    rw [hu, if_pos (by omega)]
  · have hc : c < 0x110000 := by omega
    have henc : utf16LEEncode c =
        [(0xD800 + (c - 0x10000) / 1024) % 256, (0xD800 + (c - 0x10000) / 1024) / 256,
         (0xDC00 + (c - 0x10000) % 1024) % 256, (0xDC00 + (c - 0x10000) % 1024) / 256] := by
      unfold utf16LEEncode
      rw [if_neg hb]
    rw [henc]
    show utf16Decode ((0xD800 + (c - 0x10000) / 1024) % 256 ::
      (0xD800 + (c - 0x10000) / 1024) / 256 ::
      (0xDC00 + (c - 0x10000) % 1024) % 256 ::
      (0xDC00 + (c - 0x10000) % 1024) / 256 :: rest) = _
    have hhi : (0xD800 + (c - 0x10000) / 1024) % 256 +
        256 * ((0xD800 + (c - 0x10000) / 1024) / 256) = 0xD800 + (c - 0x10000) / 1024 := by
      omega
    have hlo : (0xDC00 + (c - 0x10000) % 1024) % 256 +
        256 * ((0xDC00 + (c - 0x10000) % 1024) / 256) = 0xDC00 + (c - 0x10000) % 1024 := by
      omega
    rw [utf16Decode_pair _ _ _ _ rest (by rw [hhi]; omega) (by rw [hhi]; omega)]
    rw [hhi, hlo, if_pos (by omega)]
    have hcomb : 0x10000 + (0xD800 + (c - 0x10000) / 1024 - 0xD800) * 1024 +
        (0xDC00 + (c - 0x10000) % 1024 - 0xDC00) = c := by omega
    rw [hcomb]

theorem utf8DecodeOne_sub (b : Nat) (rest : List Nat) (c : Nat) (rest' : List Nat)
    (h : utf8DecodeOne b rest = some (c, rest')) : rest'.length ≤ rest.length := by
  unfold utf8DecodeOne at h
  split_ifs at h
  · obtain ⟨rfl, rfl⟩ : b = c ∧ rest = rest' := by simpa using h
    exact Nat.le_refl _
  · cases rest with
    | nil => simp at h
    | cons b1 rest1 =>
      dsimp only at h
      split_ifs at h
      obtain ⟨rfl, rfl⟩ : utf8Val2 b b1 = c ∧ rest1 = rest' := by simpa using h
      simp
  · cases rest with
    | nil => simp at h
    | cons b1 rest1 =>
      cases rest1 with
      | nil => simp at h
      | cons b2 rest2 =>
        dsimp only at h
        split_ifs at h
        obtain ⟨rfl, rfl⟩ : utf8Val3 b b1 b2 = c ∧ rest2 = rest' := by simpa using h
        simp
        omega
  · cases rest with
    | nil => simp at h
    | cons b1 rest1 =>
      cases rest1 with
      | nil => simp at h
      | cons b2 rest2 =>
        cases rest2 with
        | nil => simp at h
        | cons b3 rest3 =>
          dsimp only at h
          split_ifs at h
          obtain ⟨rfl, rfl⟩ : utf8Val4 b b1 b2 b3 = c ∧ rest3 = rest' := by simpa using h
          simp
          omega

theorem utf8DecodeLoop_fuel : ∀ fuel fuel' l, l.length ≤ fuel → l.length ≤ fuel' →
    utf8DecodeLoop fuel l = utf8DecodeLoop fuel' l := by
  intro fuel
  induction fuel with
  | zero =>
    intro fuel' l hl _
    have hnil : l = [] := List.eq_nil_of_length_eq_zero (by omega)
    subst hnil
    cases fuel' <;> rfl
  | succ fuel ih =>
    intro fuel' l hl hl'
    cases l with
    | nil => cases fuel' <;> rfl
    | cons b rest =>
      cases fuel' with
      | zero => simp at hl'
      | succ fuel' =>
        cases hone : utf8DecodeOne b rest with
        | none => simp only [utf8DecodeLoop, hone]
        | some pr =>
          obtain ⟨c, rest'⟩ := pr
          have hsub := utf8DecodeOne_sub b rest c rest' hone
          have h1 : rest.length ≤ fuel := by
            simp only [List.length_cons] at hl
            omega
          have h1' : rest.length ≤ fuel' := by
            simp only [List.length_cons] at hl'
            omega
          simp only [utf8DecodeLoop, hone]
          rw [ih fuel' rest' (by omega) (by omega)]

theorem utf8DecodeOne_encode (c : Nat) (h : Nat.isValidChar c) :
    ∀ rest, utf8DecodeOne ((utf8Encode c).headD 0) ((utf8Encode c).tail ++ rest) =
      some (c, rest) := by
  intro rest
  have hval : c < 0xD800 ∨ (0xDFFF < c ∧ c < 0x110000) := h
  by_cases hc1 : c < 0x80
  · have henc : utf8Encode c = [c] := by
      unfold utf8Encode
      rw [if_pos hc1]
    rw [henc]
    simp only [List.headD_cons, List.tail_cons, List.nil_append]
    unfold utf8DecodeOne
    rw [if_pos hc1]
  · by_cases hc2 : c < 0x800
    · have henc : utf8Encode c = [0xC0 + c / 64, 0x80 + c % 64] := by
        unfold utf8Encode
        rw [if_neg hc1, if_pos hc2]
      rw [henc]
      simp only [List.headD_cons, List.tail_cons, List.cons_append, List.nil_append]
      unfold utf8DecodeOne
      rw [if_neg (by omega), if_neg (by omega), if_pos (by omega)]
      dsimp only
      rw [if_pos (by unfold utf8Cont; omega)]
      have hcomb : utf8Val2 (0xC0 + c / 64) (0x80 + c % 64) = c := by
        unfold utf8Val2
        omega
      rw [hcomb]
    · by_cases hc3 : c < 0x10000
      · have henc : utf8Encode c = [0xE0 + c / 4096, 0x80 + c / 64 % 64, 0x80 + c % 64] := by
          unfold utf8Encode
          rw [if_neg hc1, if_neg hc2, if_pos hc3]
        rw [henc]
        simp only [List.headD_cons, List.tail_cons, List.cons_append, List.nil_append]
        unfold utf8DecodeOne
        rw [if_neg (by omega), if_neg (by omega), if_neg (by omega), if_pos (by omega)]
        dsimp only
        rw [if_pos (by constructor <;> (unfold utf8Cont; omega))]
        have hcomb : utf8Val3 (0xE0 + c / 4096) (0x80 + c / 64 % 64) (0x80 + c % 64) = c := by
          unfold utf8Val3
          omega
        rw [hcomb, if_pos (by unfold utf8Ok3; omega)]
      · have hc4 : c < 0x110000 := by omega
        have henc : utf8Encode c = [0xF0 + c / 262144, 0x80 + c / 4096 % 64,
            0x80 + c / 64 % 64, 0x80 + c % 64] := by
          unfold utf8Encode
          rw [if_neg hc1, if_neg hc2, if_neg hc3]
        rw [henc]
        simp only [List.headD_cons, List.tail_cons, List.cons_append, List.nil_append]
        unfold utf8DecodeOne
        rw [if_neg (by omega), if_neg (by omega), if_neg (by omega), if_neg (by omega),
          if_pos (by omega)]
        dsimp only
        rw [if_pos (by refine ⟨?_, ?_, ?_⟩ <;> (unfold utf8Cont; omega))]
        have hcomb : utf8Val4 (0xF0 + c / 262144) (0x80 + c / 4096 % 64) (0x80 + c / 64 % 64)
            (0x80 + c % 64) = c := by
          unfold utf8Val4
          omega
        rw [hcomb, if_pos (by unfold utf8Ok4; omega)]

theorem utf8Encode_ne_nil (c : Nat) : utf8Encode c ≠ [] := by
  unfold utf8Encode
  split_ifs <;> simp

theorem utf8Decode_encode (c : Nat) (h : Nat.isValidChar c) (rest : List Nat) :
    utf8Decode (utf8Encode c ++ rest) = Option.map (fun cs => c :: cs) (utf8Decode rest) := by
  cases henc : utf8Encode c with
  | nil => exact absurd henc (utf8Encode_ne_nil c)
  | cons b tail =>
    have hone : utf8DecodeOne b (tail ++ rest) = some (c, rest) := by
      have := utf8DecodeOne_encode c h rest
      rw [henc] at this
      simpa using this
    show utf8DecodeLoop ((b :: tail) ++ rest).length ((b :: tail) ++ rest) = _
    have hlen : ((b :: tail) ++ rest).length = (tail.length + rest.length) + 1 := by
      simp
    rw [hlen]
    show (match utf8DecodeOne b (tail ++ rest) with
      | none => none
      | some (c, rest') =>
        Option.map (fun cs => c :: cs) (utf8DecodeLoop (tail.length + rest.length) rest')) = _
    rw [hone]
    show Option.map (fun cs => c :: cs) (utf8DecodeLoop (tail.length + rest.length) rest) = _
    rw [utf8DecodeLoop_fuel (tail.length + rest.length) rest.length rest (by omega)
      (Nat.le_refl _)]
    rfl

theorem encodeSym_decode (enc : UEncoding) (c : Nat) (h : Nat.isValidChar c)
    (rest : List Nat) :
    decodeEnc enc (encodeSym enc c ++ rest) =
      Option.map (fun cs => c :: cs) (decodeEnc enc rest) := by
  cases enc with
  | utf8 => exact utf8Decode_encode c h rest
  | utf16 => exact utf16Decode_encode c h rest
  | utf32 => exact utf32Decode_encode c h rest

theorem decodeEnc_nil (enc : UEncoding) : decodeEnc enc [] = some [] := by
  cases enc <;> rfl

theorem decode_symbolConcat (enc : UEncoding) (syms : List Nat)
    (hval : ∀ s ∈ syms, Nat.isValidChar s) :
    decodeEnc enc ((syms.map (encodeSym enc)).flatten) = some syms := by
  induction syms with
  | nil => simpa using decodeEnc_nil enc
  | cons s ss ih =>
    simp only [List.map_cons, List.flatten_cons]
    rw [encodeSym_decode enc s (hval s (by simp)),
      ih (fun t ht => hval t (by simp [ht]))]
    rfl

theorem isSymbolConcat_append (enc : UEncoding) (A w1 w2 : List Nat)
    (h1 : IsSymbolConcat enc A w1) (h2 : IsSymbolConcat enc A w2) :
    IsSymbolConcat enc A (w1 ++ w2) := by
  obtain ⟨s1, hs1, rfl⟩ := h1
  obtain ⟨s2, hs2, rfl⟩ := h2
  refine ⟨s1 ++ s2, ?_, by simp⟩
  intro s hs
  rcases List.mem_append.mp hs with hs | hs
  · exact hs1 s hs
  · exact hs2 s hs

theorem isSymbolConcat_flatten (enc : UEncoding) (A : List Nat) :
    ∀ l : List (List Nat), (∀ w ∈ l, IsSymbolConcat enc A w) →
      IsSymbolConcat enc A l.flatten := by
  intro l
  induction l with
  | nil => intro _; exact ⟨[], by simp, by simp⟩
  | cons w rest ih =>
    intro hall
    rw [List.flatten_cons]
    exact isSymbolConcat_append enc A w rest.flatten (hall w (by simp))
      (ih (fun v hv => hall v (by simp [hv])))

theorem drawSym_mem (chars : List Nat) (rng : Rng) (h : chars ≠ []) :
    (drawSym chars rng).1 ∈ chars :=
  getD_mem_of_ne_nil chars _ h

theorem guardedLoop_concat (lenFn : Nat → Nat) (encFn : Nat → List Nat) (fuel : Nat) :
    ∀ budget current chars rng acc w rng',
      guardedLoop lenFn encFn fuel budget current chars rng acc = some (w, rng') →
      chars ≠ [] →
      (∃ syms0 : List Nat, (∀ s ∈ syms0, s ∈ chars) ∧
        acc = (List.map encFn syms0).flatten) →
      ∃ syms : List Nat, (∀ s ∈ syms, s ∈ chars) ∧
        w = (List.map encFn syms).flatten := by
  induction fuel with
  | zero =>
    intro budget current chars rng acc w rng' h hne hacc
    unfold guardedLoop at h
    split at h
    · exact absurd h (by simp)
    · obtain ⟨rfl, rfl⟩ : acc = w ∧ rng = rng' := by simpa using h
      exact hacc
  | succ fuel ih =>
    intro budget current chars rng acc w rng' h hne hacc
    unfold guardedLoop at h
    split at h
    · split at h
      · refine ih budget _ chars _ _ w rng' h hne ?_
        obtain ⟨syms0, hs0, rfl⟩ := hacc
        exact ⟨syms0 ++ [(drawSym chars rng).1], by
          intro s hs
          rcases List.mem_append.mp hs with hs | hs
          · exact hs0 s hs
          · simp only [List.mem_singleton] at hs
            exact hs ▸ drawSym_mem chars rng hne, by simp⟩
      · exact ih budget current chars _ acc w rng' h hne hacc
    · obtain ⟨rfl, rfl⟩ : acc = w ∧ rng = rng' := by simpa using h
      exact hacc

theorem utf32Loop_concat (fuel : Nat) :
    ∀ budget current chars rng acc w rng',
      utf32Loop fuel budget current chars rng acc = some (w, rng') →
      chars ≠ [] →
      (∃ syms0 : List Nat, (∀ s ∈ syms0, s ∈ chars) ∧
        acc = (List.map u32LEBytes syms0).flatten) →
      ∃ syms : List Nat, (∀ s ∈ syms, s ∈ chars) ∧
        w = (List.map u32LEBytes syms).flatten := by
  induction fuel with
  | zero =>
    intro budget current chars rng acc w rng' h hne hacc
    unfold utf32Loop at h
    split at h
    · exact absurd h (by simp)
    · obtain ⟨rfl, rfl⟩ : acc = w ∧ rng = rng' := by simpa using h
      exact hacc
  | succ fuel ih =>
    intro budget current chars rng acc w rng' h hne hacc
    unfold utf32Loop at h
    split at h
    · refine ih budget _ chars _ _ w rng' h hne ?_
      obtain ⟨syms0, hs0, rfl⟩ := hacc
      exact ⟨syms0 ++ [(drawSym chars rng).1], by
        intro s hs
        rcases List.mem_append.mp hs with hs | hs
        · exact hs0 s hs
        · simp only [List.mem_singleton] at hs
          exact hs ▸ drawSym_mem chars rng hne, by simp⟩
    · obtain ⟨rfl, rfl⟩ : acc = w ∧ rng = rng' := by simpa using h
      exact hacc

theorem genRandomUnicode_concat (enc : UEncoding) (fuel budget : Nat) (chars : List Nat)
    (rng : Rng) (w : List Nat) (rng' : Rng)
    (h : genRandomUnicode enc fuel 0 budget chars rng = some (w, rng'))
    (hne : chars ≠ []) : IsSymbolConcat enc chars w := by
  cases enc with
  | utf8 =>
    obtain ⟨syms, hs, hw⟩ := guardedLoop_concat utf8Len utf8Encode fuel budget 0 chars rng
      [] w rng' h hne ⟨[], by simp, by simp⟩
    exact ⟨syms, hs, hw⟩
  | utf16 =>
    obtain ⟨syms, hs, hw⟩ := guardedLoop_concat _ utf16LEEncode fuel budget 0 chars rng
      [] w rng' h hne ⟨[], by simp, by simp⟩
    exact ⟨syms, hs, hw⟩
  | utf32 =>
    obtain ⟨syms, hs, hw⟩ := utf32Loop_concat fuel budget 0 chars rng
      [] w rng' h hne ⟨[], by simp, by simp⟩
    exact ⟨syms, hs, hw⟩

theorem unicodeRounds_concat (enc : UEncoding) (fuel : Nat) :
    ∀ r bufSize chars rng ws rng', chars ≠ [] →
      unicodeRounds enc fuel r bufSize chars rng = some (ws, rng') →
      ∀ w ∈ ws, IsSymbolConcat enc chars w := by
  intro r
  induction r with
  | zero =>
    intro bufSize chars rng ws rng' _ h
    obtain ⟨rfl, rfl⟩ : ([] : List (List Nat)) = ws ∧ rng = rng' := by
      simpa [unicodeRounds] using h
    simp
  | succ r ih =>
    intro bufSize chars rng ws rng' hne h
    unfold unicodeRounds at h
    split at h
    · exact absurd h (by simp)
    · rename_i w1 rng1 hw1
      split at h
      · exact absurd h (by simp)
      · rename_i ws1 rng2 hws1
        obtain ⟨rfl, rfl⟩ : w1 :: ws1 = ws ∧ rng2 = rng' := by simpa using h
        intro w hw
        rcases List.mem_cons.mp hw with rfl | hw
        · exact genRandomUnicode_concat enc fuel bufSize chars rng w rng1 hw1 hne
        · exact ih bufSize chars rng1 ws1 rng2 hne hws1 w hw

theorem unicodeWorker_concat (enc : UEncoding) (fuel chunkSize bufSize m : Nat)
    (chars : List Nat) (rng : Rng) (ws : List (List Nat)) (hne : chars ≠ [])
    (h : unicodeWorker enc fuel chunkSize bufSize m chars rng = some ws) :
    ∀ w ∈ ws, IsSymbolConcat enc chars w := by
  unfold unicodeWorker at h
  split at h
  · exact absurd h (by simp)
  · rename_i ws1 rng1 hws1
    split at h
    · obtain rfl : ws1 = ws := by simpa using h
      exact unicodeRounds_concat enc fuel _ bufSize chars rng ws1 rng1 hne hws1
    · split at h
      · exact absurd h (by simp)
      · rename_i w1 rng2 hw1
        obtain rfl : ws1 ++ [w1] = ws := by simpa using h
        intro w hw
        rcases List.mem_append.mp hw with hw | hw
        · exact unicodeRounds_concat enc fuel _ bufSize chars rng ws1 rng1 hne hws1 w hw
        · simp only [List.mem_singleton] at hw
          exact hw ▸ genRandomUnicode_concat enc fuel _ chars rng1 w1 rng2 hw1 hne

theorem unicodeWorkers_concat (enc : UEncoding) (fuel : Nat) (bufOpt : Option Nat)
    (m : Nat) (chars : List Nat) (rngSeq : Nat → Nat → Nat) (hne : chars ≠ []) :
    ∀ chunks i ws,
      unicodeWorkers enc fuel bufOpt m chars rngSeq chunks i = some ws →
      ∀ w ∈ ws, IsSymbolConcat enc chars w := by
  intro chunks
  induction chunks with
  | nil =>
    intro i ws h
    obtain rfl : ([] : List (List Nat)) = ws := by simpa [unicodeWorkers] using h
    simp
  | cons chunk rest ih =>
    intro i ws h
    unfold unicodeWorkers at h
    split at h
    · exact absurd h (by simp)
    · rename_i restWs hrest
      split at h
      · obtain rfl : restWs = ws := by simpa using h
        exact ih (i + 1) restWs hrest
      · split at h
        · exact absurd h (by simp)
        · rename_i ws1 hws1
          obtain rfl : ws1 ++ restWs = ws := by simpa using h
          intro w hw
          rcases List.mem_append.mp hw with hw | hw
          · exact unicodeWorker_concat enc fuel chunk _ m chars ⟨rngSeq i, 0⟩ ws1 hne hws1 w hw
          · exact ih (i + 1) restWs hrest w hw

theorem runUnicode_ok_concat (sz : ByteSize) (enc : UEncoding)
    (charset exclude : Option (List Nat)) (n : Nat) (bufSize : Option ByteSize)
    (rngSeq : Nat → Nat → Nat) (fuel : Nat) (ws : List (List Nat))
    (h : runUnicode (some sz) enc charset exclude n bufSize false rngSeq fuel =
      .ok (some ws)) :
    ∀ w ∈ ws, IsSymbolConcat enc (resolveUnicodeChars charset exclude) w := by
  unfold runUnicode at h
  simp only [Bool.false_eq_true, if_false, Option.getD_some] at h
  split at h
  · exact absurd h (by simp)
  · split at h
    · exact absurd h (by simp)
    · split at h
      · exact absurd h (by simp)
      · split at h
        · exact absurd h (by simp)
        · rename_i hemp
          have hne : resolveUnicodeChars charset exclude ≠ [] := by
            intro hcontra
            exact hemp (by simp [hcontra])
          split at h
          · exact absurd h (by simp)
          · rename_i ws1 hws1
            obtain rfl : ws1 = ws := by simpa using h
            exact unicodeWorkers_concat enc fuel _ _ _ rngSeq hne _ 0 ws1 hws1

/-- Claim C4: for every finite UTF-8/UTF-16LE/UTF-32LE request (with the
alphabet drawn from Rust `char`s, i.e. valid scalar values), every buffer
flushed to the sink is a whole number of completely encoded symbols of the
resolved alphabet: each buffer decodes under the active encoding to a list
of alphabet symbols, and concatenating all written buffers in any order
still decodes to a whole number of valid symbols — no truncated multi-byte
sequence appears. -/
theorem C4_alignment :
    ∀ sz enc charset exclude n bufSize rngSeq fuel ws,
      runUnicode (some sz) enc charset exclude n bufSize false rngSeq fuel =
        .ok (some ws) →
      (∀ c ∈ resolveUnicodeChars charset exclude, Nat.isValidChar c) →
      (∀ w ∈ ws, ∃ syms, (∀ s ∈ syms, s ∈ resolveUnicodeChars charset exclude) ∧
        decodeEnc enc w = some syms) ∧
      (∀ perm, List.Perm perm ws →
        ∃ syms, (∀ s ∈ syms, s ∈ resolveUnicodeChars charset exclude) ∧
          decodeEnc enc perm.flatten = some syms) := by
  intro sz enc charset exclude n bufSize rngSeq fuel ws h hval
  have hconcat := runUnicode_ok_concat sz enc charset exclude n bufSize rngSeq fuel ws h
  constructor
  · intro w hw
    obtain ⟨syms, hs, rfl⟩ := hconcat w hw
    exact ⟨syms, hs, decode_symbolConcat enc syms (fun s hsm => hval s (hs s hsm))⟩
  · intro perm hperm
    have hall : ∀ w ∈ perm, IsSymbolConcat enc (resolveUnicodeChars charset exclude) w :=
      fun w hw => hconcat w (hperm.mem_iff.mp hw)
    obtain ⟨syms, hs, hflat⟩ := isSymbolConcat_flatten enc _ perm hall
    rw [hflat]
    exact ⟨syms, hs, decode_symbolConcat enc syms (fun s hsm => hval s (hs s hsm))⟩

/-- Concrete instance of `C4_alignment`: 3 bytes of UTF-8 over alphabet
`"a"`; the single flushed buffer decodes to `aaa`, as does its (trivial)
reordering. -/
theorem C4_alignment_witness :
    (runUnicode (some ⟨3, ByteUnit.B⟩) .utf8 (some [97]) none 1 none false
        (fun _ _ => 0) 3 = .ok (some [[97, 97, 97]]) ∧
      (∀ c ∈ resolveUnicodeChars (some [97]) none, Nat.isValidChar c)) ∧
    ((∀ w ∈ ([[97, 97, 97]] : List (List Nat)),
        ∃ syms, (∀ s ∈ syms, s ∈ resolveUnicodeChars (some [97]) none) ∧
          decodeEnc .utf8 w = some syms) ∧
      (∀ perm, List.Perm perm ([[97, 97, 97]] : List (List Nat)) →
        ∃ syms, (∀ s ∈ syms, s ∈ resolveUnicodeChars (some [97]) none) ∧
          decodeEnc .utf8 perm.flatten = some syms)) :=
  ⟨⟨rfl, by decide⟩,
   C4_alignment ⟨3, ByteUnit.B⟩ .utf8 (some [97]) none 1 none (fun _ _ => 0) 3
     [[97, 97, 97]] rfl (by decide)⟩

end GenSpec
